import Mathlib

/-!
Verification of the TIAZip compression pipeline of the Furnace Atari 2600
exporter (src/engine/export/atari2600Export.cpp together with huffman.h /
huffman.cpp).  The C++ is shallowly embedded: machine integers become `Nat`
(with explicit `% 2 ^ w` where the source converts to a narrower type),
`std::vector` becomes `List`/`Array`, `std::map` becomes a sorted association
list, and each loop becomes a recursive function.
-/

namespace TIAZip

/-! ### AlphaCode: the 64-bit instruction word

The typedef `AlphaCode = uint64_t` lives in suffixTree.h (not in the provided
sources); the spec describes it as a 64-bit opaque instruction word whose high
byte is the opcode tag.  The tag values mirror `enum CODE_TYPE` in
atari2600Export.cpp (STOP = 0 .. RETURN_NOOP = 11), and the constructors and
getters below are transcribed from the same file. -/

abbrev AlphaCode := Nat

def TAG_STOP : Nat := 0

def TAG_WRITE_DELTA : Nat := 1

def TAG_PAUSE : Nat := 2

def TAG_SUSTAIN : Nat := 3

def TAG_JUMP : Nat := 4

def TAG_BRANCH_POINT : Nat := 5

def TAG_SKIP : Nat := 6

def TAG_TAKE_DATA_JUMP : Nat := 7

def TAG_TAKE_TRACK_JUMP : Nat := 8

def TAG_RETURN_LAST : Nat := 9

def TAG_RETURN_FF : Nat := 10

def TAG_RETURN_NOOP : Nat := 11

/-- CHANGE_STATE enum: NOOP = 0, CHANGE = 1. -/
def NOOP : Nat := 0

def CHANGE : Nat := 1

/-- CODE_WRITE_DELTA from atari2600Export.cpp.  The `% 256` model the
`unsigned char` parameter types; the change flags are the enum values 0/1. -/
def CODE_WRITE_DELTA (cc cx fc fx vc vx duration : Nat) : AlphaCode :=
  TAG_WRITE_DELTA <<< 56 ||| cc <<< 48 ||| (cx % 256) <<< 40 ||| fc <<< 32 |||
    (fx % 256) <<< 24 ||| vc <<< 16 ||| (vx % 256) <<< 8 ||| (duration % 256)

def CODE_PAUSE (duration : Nat) : AlphaCode :=
  TAG_PAUSE <<< 56 ||| (duration % 256)

def CODE_SUSTAIN (duration : Nat) : AlphaCode :=
  TAG_SUSTAIN <<< 56 ||| (duration % 256)

def CODE_STOP : AlphaCode := TAG_STOP <<< 56

def CODE_BRANCH_POINT : AlphaCode := TAG_BRANCH_POINT <<< 56 ||| 0

def CODE_SKIP : AlphaCode := TAG_SKIP <<< 56 ||| 0

def CODE_TAKE_DATA_JUMP : AlphaCode := TAG_TAKE_DATA_JUMP <<< 56

def CODE_TAKE_TRACK_JUMP : AlphaCode := TAG_TAKE_TRACK_JUMP <<< 56

def CODE_RETURN_LAST : AlphaCode := TAG_RETURN_LAST <<< 56

def CODE_RETURN_FF : AlphaCode := TAG_RETURN_FF <<< 56

def CODE_RETURN_NOOP : AlphaCode := TAG_RETURN_NOOP <<< 56

/-- CODE_JUMP packs subsong and channel bytes with the address (the C++ takes
`int subsong, int channel, size_t address` and ors them shifted). -/
def CODE_JUMP (subsong channel address : Nat) : AlphaCode :=
  TAG_JUMP <<< 56 ||| subsong <<< 48 ||| channel <<< 40 ||| address

def GET_CODE_JUMP_ADDRESS (c : AlphaCode) : Nat := c &&& 0x1fff

def GET_CODE_TYPE (c : AlphaCode) : Nat := c >>> 56

def GET_CODE_WRITE_DURATION (c : AlphaCode) : Nat := c &&& 0xff

/-! ### ChannelState and the code emitter

`ChannelState` (registerDump.h, not among the provided sources) is, per the
spec, a tuple of three 8-bit registers `(control, frequency, volume)` stored
as `registers[0..2]`.  We model the three bytes as `Nat` fields; theorems add
a `< 256` bound where the `unsigned char` representation matters. -/

structure ChannelState where
  r0 : Nat
  r1 : Nat
  r2 : Nat

deriving DecidableEq, Repr

/-- Residual sustain loop of `encodeChannelStateCodes` (atari2600Export.cpp):
`while (framecount > 0) { dx = framecount > 16 ? 16 : framecount; framecount -= dx; out += CODE_SUSTAIN(dx); }`. -/
def sustainLoop (framecount : Nat) : List AlphaCode :=
  if h : framecount > 0 then
    let dx := if framecount > 16 then 16 else framecount
    CODE_SUSTAIN dx :: sustainLoop (framecount - dx)
  else []
termination_by framecount
decreasing_by
  split <;> omega

/-- Change-flag computation `a != b ? CHANGE : NOOP` from
`encodeChannelStateCodes`. -/
def flagNe (a b : Nat) : Nat := if a ≠ b then CHANGE else NOOP

/-- Volume smoothing block of `encodeChannelStateCodes` (the BUGBUG INC/DEC
block): a target volume one above (below) the previous one is replaced by the
increment sentinel 0x10 (decrement sentinel 0xf0). -/
def smoothVolume (nextV lastV : Nat) : Nat :=
  if nextV = lastV + 1 then 0x10
  else if lastV = nextV + 1 then 0xf0
  else nextV

/-- DivExportAtari2600::encodeChannelStateCodes (atari2600Export.cpp).  The
C++ appends to an output vector and returns the number of codes written; we
return the appended codes.  The `duration` parameter is declared `const char`
in the source; we take its integer value. -/
def encodeChannelStateCodes (next : ChannelState) (duration : Int)
    (last : ChannelState) : List AlphaCode :=
  let framecount : Nat := if duration > 0 then duration.toNat else 1
  let cc := flagNe next.r0 last.r0
  let fc := flagNe next.r1 last.r1
  let vc := flagNe next.r2 last.r2
  let audvx := smoothVolume next.r2 last.r2
  let dx := 1
  let framecount := framecount - dx
  -- control changes force frequency and volume change flags on
  let fc := if cc > 0 then CHANGE else fc
  let vc := if cc > 0 then CHANGE else vc
  (if audvx = 0 then [CODE_PAUSE dx]
   else if cc + fc + vc > 0 then
     [CODE_WRITE_DELTA cc (if cc = NOOP then 0 else next.r0)
       fc (if fc = NOOP then 0 else next.r1)
       vc (if vc = NOOP then 0 else audvx) dx]
   else []) ++ sustainLoop framecount

/-! ### The greedy span parse of compressCodeSequence

`compressCodeSequence` (atari2600Export.cpp) parses the alphabet-indexed
sequence greedily into literal spans and back-reference spans, building
`copyMap` (leftmost copy of each position), `branchFrequencyMap` (successor
histograms) and `skipMap` (default branch targets).  The suffix tree
(suffixTree.h/.cpp, not among the provided sources) is abstracted as an
oracle `fp : Nat → Nat × Nat` returning the `(start, length)` pair that
`find_prior` stores into its output span. -/

/-- Span from suffixTree.h.  Modelled from the spec: the header is not among
the provided sources; the spec defines a span as
`{ subsong, channel, start, length }`. -/
structure Span where
  subsong : Nat
  channel : Nat
  start : Nat
  length : Nat

deriving DecidableEq, Repr

/-- State of the greedy parse loop: the two maps, the emitted spans, and the
pending literal span (`currentSpan` in the source). -/
structure ParseState where
  copyMap : Array Nat
  branchFrequencyMap : Array (List (Nat × Nat))
  spans : List Span
  currentStart : Nat
  currentLen : Nat

deriving Repr

/-- Increment of a `std::map<size_t, size_t>` entry, on the sorted
association list representation (missing keys behave as zero). -/
def bumpSorted : List (Nat × Nat) → Nat → List (Nat × Nat)
  | [], k => [(k, 1)]
  | (a, c) :: rest, k =>
    if k < a then (k, 1) :: (a, c) :: rest
    else if k = a then (a, c + 1) :: rest
    else (a, c) :: bumpSorted rest k

/-- Increment `branchFrequencyMap[src][succ]`. -/
def bumpBfm (bfm : Array (List (Nat × Nat))) (src succ : Nat) :
    Array (List (Nat × Nat)) :=
  bfm.setD src (bumpSorted (bfm.getD src []) succ)

/-- Inner loop of the back-reference branch of the parse: for `rem` steps,
copy `copyMap[j]` to `copyMap[i]` and record the branch frequency
`branchFrequencyMap[copyMap[i-1]][copyMap[j]]`. -/
def copyLoop : Nat → Nat → Nat → ParseState → ParseState
  | _, _, 0, st => st
  | j, i, rem + 1, st =>
    let nextCodeAddr := st.copyMap.getD j 0
    let cm := st.copyMap.setD i nextCodeAddr
    let bfm :=
      if i > 0 then bumpBfm st.branchFrequencyMap (cm.getD (i - 1) 0) nextCodeAddr
      else st.branchFrequencyMap
    copyLoop (j + 1) (i + 1) rem
      { st with copyMap := cm, branchFrequencyMap := bfm }

/-- Outer loop of the greedy parse.  The C++ `for (i = 0; i < n; )` advances
`i` by at least one per iteration, so `n` iterations of fuel always suffice;
the fuel-exhausted branch is unreachable from `parseSpans`. -/
def parseGo (fp : Nat → Nat × Nat) (n : Nat) (ss ch : Nat) :
    Nat → Nat → ParseState → ParseState
  | 0, _, st => st
  | fuel + 1, i, st =>
    if i < n then
      let sp := fp i
      if sp.2 > 3 then
        let st1 :=
          if st.currentLen > 0 then
            { st with spans := st.spans ++ [⟨ss, ch, st.currentStart, st.currentLen⟩] }
          else st
        let st2 := { st1 with spans := st1.spans ++ [⟨ss, ch, sp.1, sp.2⟩] }
        let st3 := copyLoop sp.1 i sp.2 st2
        parseGo fp n ss ch fuel (i + sp.2)
          { st3 with currentStart := i + sp.2, currentLen := 0 }
      else
        let bfm :=
          if i > 0 then bumpBfm st.branchFrequencyMap (st.copyMap.getD (i - 1) 0) i
          else st.branchFrequencyMap
        parseGo fp n ss ch fuel (i + 1)
          { st with
            branchFrequencyMap := bfm
            copyMap := st.copyMap.setD i i
            currentLen := st.currentLen + 1 }
    else st

/-- The greedy parse stage of `compressCodeSequence`: zero-initialized maps
(`std::vector::resize` value-initializes), loop, then the final
`if (currentSpan.length > 0) spans.emplace_back(currentSpan)`. -/
def parseSpans (ss ch : Nat) (fp : Nat → Nat × Nat) (n : Nat) : ParseState :=
  let st0 : ParseState := ⟨Array.mkArray n 0, Array.mkArray n [], [], 0, 0⟩
  let st := parseGo fp n ss ch n 0 st0
  if st.currentLen > 0 then
    { st with spans := st.spans ++ [⟨ss, ch, st.currentStart, st.currentLen⟩] }
  else st

/-- Literal/back-reference classification of each position, read off the
parsed span list exactly the way the emit loop does (`repeatSpan = end >
span.start`): walking the spans in order, a span entered at walk position
`pos` is a repeat iff `pos > start`, and covers `length` positions. -/
def literalFlags : List Span → Nat → List Bool
  | [], _ => []
  | sp :: rest, pos =>
    List.replicate sp.length (decide (¬ pos > sp.start)) ++
      literalFlags rest (pos + sp.length)

/-- Modelled from the spec: `SuffixTree::find_prior` (suffixTree.cpp is not
among the provided sources).  Per the spec it yields the longest prefix
`seq[i..i+L)` that also begins at some position `j < i` (here the leftmost
such `j`), and length 0 if none exists. -/
def findPriorSpec (s : List Nat) (i : Nat) : Nat × Nat :=
  let n := s.length
  let matchAt := fun (j L : Nat) =>
    (List.range L).all fun k => s.getD (j + k) 0 == s.getD (i + k) 0
  match (List.range (n - i)).reverse.findSome? (fun Lm1 =>
      ((List.range i).find? fun j => matchAt j (Lm1 + 1)).map
        fun j => (j, Lm1 + 1)) with
  | some r => r
  | none => (0, 0)

/-- Computation of one `skipMap` entry (atari2600Export.cpp, the prune loop):
`maxFreq = 0; skipIndex = copyMap[i+1]; for ((f, cnt) in bfm[i]) if (f != i+1
&& cnt > maxFreq) { maxFreq = cnt; skipIndex = f; }`. -/
def skipEntry (copyMap : Array Nat) (i : Nat) (bf : List (Nat × Nat)) : Nat :=
  (bf.foldl
    (fun (acc : Nat × Nat) x =>
      if x.1 ≠ i + 1 ∧ x.2 > acc.1 then (x.2, x.1) else acc)
    (0, copyMap.getD (i + 1) 0)).2

/-- The full `skipMap` vector. -/
def computeSkipMap (copyMap : Array Nat) (bfm : Array (List (Nat × Nat))) :
    List Nat :=
  (List.range bfm.size).map fun i => skipEntry copyMap i (bfm.getD i [])

/-! ### The control-flow rewriter (emit loop) of compressCodeSequence -/

/-- State of the emit loop: the two output streams, the label table, and the
global position counter (`end` in the source). -/
structure EmitState where
  ccs : List AlphaCode
  spanSeq : List AlphaCode
  labels : Array Nat
  endPos : Nat

deriving Repr

/-- One iteration of the inner emit loop of `compressCodeSequence`
(atari2600Export.cpp, the span traversal), processing the position the
`end` counter currently points at.  Returns the new state and whether the
`break` on a STOP code fired. -/
def emitPos (ss ch : Nat) (codeSequence : List AlphaCode) (copyMap : Array Nat)
    (bfm : Array (List (Nat × Nat))) (skipMap : List Nat)
    (repeatSpan : Bool) (i : Nat) (st : EmitState) : EmitState × Bool :=
  let leftmostCodeAddr := copyMap.getD st.endPos 0
  let c := codeSequence.getD i 0
  if hstop : ¬ repeatSpan ∧ c = CODE_STOP then
    ({ st with
        ccs := st.ccs ++ [CODE_BRANCH_POINT]
        spanSeq := st.spanSeq ++ [CODE_STOP]
        labels := st.labels.setD i st.ccs.length }, true)
  else
    let st := if repeatSpan then st
      else { st with ccs := st.ccs ++ [c], labels := st.labels.setD i st.ccs.length }
    let endPos := st.endPos + 1
    let st := { st with endPos := endPos }
    let nextCodeAddress := copyMap.getD endPos 0
    let branchTable := bfm.getD leftmostCodeAddr []
    if nextCodeAddress = leftmostCodeAddr + 1 ∧ branchTable.length < 2 then
      (st, false)
    else
      let skipCodeAddress := skipMap.getD leftmostCodeAddr 0
      let st := if repeatSpan then st
        else { st with ccs := st.ccs ++
          [if branchTable.length < 2 then CODE_TAKE_DATA_JUMP else CODE_BRANCH_POINT,
           CODE_JUMP ss ch skipCodeAddress] }
      let st :=
        if branchTable.length > 1 then
          if nextCodeAddress = skipCodeAddress then
            { st with spanSeq := st.spanSeq ++ [CODE_TAKE_DATA_JUMP] }
          else if nextCodeAddress = leftmostCodeAddr + 1 then
            { st with spanSeq := st.spanSeq ++ [CODE_SKIP] }
          else
            { st with spanSeq := st.spanSeq ++
              [CODE_TAKE_TRACK_JUMP, CODE_JUMP ss ch nextCodeAddress] }
        else st
      (st, false)

/-- Inner emit loop over the positions of one span (`for (i = span.start;
i < spanEnd; i++)` with the `break` on STOP). -/
def emitSpanGo (ss ch : Nat) (codeSequence : List AlphaCode)
    (copyMap : Array Nat) (bfm : Array (List (Nat × Nat)))
    (skipMap : List Nat) (repeatSpan : Bool) :
    Nat → Nat → EmitState → EmitState
  | _, 0, st => st
  | i, rem + 1, st =>
    let r := emitPos ss ch codeSequence copyMap bfm skipMap repeatSpan i st
    if r.2 then r.1
    else emitSpanGo ss ch codeSequence copyMap bfm skipMap repeatSpan
      (i + 1) rem r.1

/-- Outer emit loop over the parsed spans; `repeatSpan = end > span.start`
is evaluated once at span entry. -/
def emitSpans (ss ch : Nat) (codeSequence : List AlphaCode)
    (copyMap : Array Nat) (bfm : Array (List (Nat × Nat)))
    (skipMap : List Nat) : List Span → EmitState → EmitState
  | [], st => st
  | sp :: rest, st =>
    let repeatSpan := decide (st.endPos > sp.start)
    let st := emitSpanGo ss ch codeSequence copyMap bfm skipMap repeatSpan
      sp.start sp.length st
    emitSpans ss ch codeSequence copyMap bfm skipMap rest st

/-- Jump-address rewriting pass: each JUMP operand is redirected through the
label table (`labels[GET_CODE_JUMP_ADDRESS(c)]`). -/
def rewriteJumps (ss ch : Nat) (labels : Array Nat)
    (l : List AlphaCode) : List AlphaCode :=
  l.map fun c =>
    if GET_CODE_TYPE c = TAG_JUMP then
      CODE_JUMP ss ch (labels.getD (GET_CODE_JUMP_ADDRESS c) 0)
    else c

def testSeq10 : List Nat := [0, 1, 2, 3, 4, 0, 1, 2, 3, 4]

def testSeq11 : List Nat := [0, 1, 2, 3, 4, 0, 1, 2, 3, 4, 5]

/-- Concrete data for the emit-step witness: the code sequence indexed by
`testSeq11` (five distinct codes repeated, then STOP). -/
def w5codes : List AlphaCode :=
  [CODE_SUSTAIN 1, CODE_SUSTAIN 2, CODE_SUSTAIN 3, CODE_SUSTAIN 4,
   CODE_SUSTAIN 5, CODE_SUSTAIN 1, CODE_SUSTAIN 2, CODE_SUSTAIN 3,
   CODE_SUSTAIN 4, CODE_SUSTAIN 5, CODE_STOP]

def w5copy : Array Nat :=
  (parseSpans 0 0 (findPriorSpec testSeq11) testSeq11.length).copyMap

def w5bfm : Array (List (Nat × Nat)) :=
  (parseSpans 0 0 (findPriorSpec testSeq11) testSeq11.length).branchFrequencyMap

def w5skip : List Nat := computeSkipMap w5copy w5bfm

def w5state : EmitState := ⟨[], [], Array.mkArray 11 0, 4⟩

/-- Total length covered by a span list. -/
def spansLen (l : List Span) : Nat := (l.map fun sp => sp.length).sum

/-- Per-position invariant of the parse: entries below `bound` point at or
before themselves, and point at themselves exactly at literal positions. -/
def cmInv (cm : Array Nat) (flags : List Bool) (bound : Nat) : Prop :=
  ∀ m < bound, cm.getD m 0 ≤ m ∧ (cm.getD m 0 = m ↔ flags.getD m false = true)

/-! ### Bitstream (huffman.h / huffman.cpp)

The buffer is an array of 64-bit words; we model it as a list of `Nat`
words.  The read and write cursors are bit positions. -/

structure Bitstream where
  buffer : List Nat
  capacity : Nat
  pos : Nat
  endPos : Nat

deriving DecidableEq, Repr

/-- Bit of the stream at bit position `p`: bit `p % 64` of word `p / 64`. -/
def streamBit (bs : Bitstream) (p : Nat) : Nat :=
  (bs.buffer.getD (p >>> 6) 0 >>> (p % 64)) &&& 1

/-- Bitstream::readByte from huffman.cpp, returning the byte and the updated
stream.  Note the spanning branch reads `buffer[address]` again, exactly as
the source does. -/
def readByte (bs : Bitstream) : Nat × Bitstream :=
  let s := bs.pos % 64
  let address := bs.pos >>> 6
  let pos := bs.pos + 8
  let next := pos >>> 6
  let result := (bs.buffer.getD address 0 >>> s) &&& 0xff
  let result :=
    if next > address then
      result ||| ((bs.buffer.getD address 0 <<< (8 - pos % 64)) &&& 0xff)
    else result
  (result, { bs with pos := pos })

/-- Bitstream::writeBit from huffman.cpp.  The C computes the mask with
`1 << s` stored into a `uint64_t`; we take the 64-bit shift.  The
out-of-bounds write (prevented by the assert in the source) is a no-op of
`List.set`. -/
def writeBit (bs : Bitstream) (bit : Bool) : Bitstream :=
  let s := bs.pos % 64
  let address := bs.pos >>> 6
  let mask := 1 <<< s
  let w := bs.buffer.getD address 0
  let w2 := if bit then w ||| mask else w &&& ((2 ^ 64 - 1) ^^^ mask)
  let pos2 := bs.pos + 1
  ⟨bs.buffer.set address w2, bs.capacity, pos2,
    if pos2 > bs.endPos then pos2 else bs.endPos⟩

/-- Loop of Bitstream::writeByte from huffman.cpp:
`while (mask > 0) { writeBit(byte & mask > 0); mask = mask >> 1; }`.
By C precedence, `byte & mask > 0` parses as `byte & (mask > 0)`, so every
iteration passes bit `byte & 1`. -/
def writeByteLoop (byte : Nat) (mask : Nat) (bs : Bitstream) : Bitstream :=
  if h : mask > 0 then
    writeByteLoop byte (mask >>> 1)
      (writeBit bs ((byte &&& (if mask > 0 then 1 else 0)) ≠ 0))
  else bs
termination_by mask
decreasing_by
  rw [Nat.shiftRight_eq_div_pow]
  exact Nat.div_lt_self h (by omega)

/-- Bitstream::writeByte: the mask starts at 0x80. -/
def writeByte (bs : Bitstream) (byte : Nat) : Bitstream :=
  writeByteLoop byte 0x80 bs

/-- Iterated writeBit with a fixed bit, used to restate writeByte. -/
def writeBitN : Nat → Bitstream → Bool → Bitstream
  | 0, bs, _ => bs
  | n + 1, bs, bit => writeBitN n (writeBit bs bit) bit

/-! ### Huffman tree construction (huffman.cpp)

The C++ `HuffmanTree` node carries a code (0 for internal nodes), a weight,
and two children; `buildHuffmanTree` drives a `std::priority_queue` whose
comparator orders by weight descending then code ascending, so the top is
the minimum-weight node (largest code on ties).  We model the queue as a
list from which `heapPop` extracts such a top element (the first one in
list order when two nodes compare equal, which for distinct map keys only
happens between internal nodes and never affects the leaf multiset). -/

inductive HuffmanTree where
  | leaf (code : AlphaCode) (weight : Nat)
  | internal (left right : HuffmanTree) (weight : Nat)

deriving DecidableEq, Repr

def treeWeight : HuffmanTree → Nat
  | .leaf _ w => w
  | .internal _ _ w => w

/-- Code field of a node; the C++ constructor stores 0 in internal nodes. -/
def treeCode : HuffmanTree → Nat
  | .leaf c _ => c
  | .internal _ _ _ => 0

/-- Priority of the C++ comparator: `a` is popped before `b` when its weight
is smaller, or on equal weights when its code is larger. -/
def popsBefore (a b : HuffmanTree) : Bool :=
  decide (treeWeight a < treeWeight b) ||
    (decide (treeWeight a = treeWeight b) && decide (treeCode b < treeCode a))

def heapTop : List HuffmanTree → Option HuffmanTree
  | [] => none
  | t :: rest => some (rest.foldl (fun acc x => if popsBefore x acc then x else acc) t)

def heapPop (h : List HuffmanTree) : Option (HuffmanTree × List HuffmanTree) :=
  match heapTop h with
  | none => none
  | some t => some (t, h.erase t)

/-- Culling loop of `buildHuffmanTree`: `while (heap.size() > limit) {
node = heap.top(); heap.pop(); literal_weight += node->weight; }`.  One
iteration removes one node, so fuel `heap.length` always suffices. -/
def cullLoop : Nat → List HuffmanTree → Nat → Nat → (List HuffmanTree × Nat)
  | 0, heap, _, lw => (heap, lw)
  | fuel + 1, heap, limit, lw =>
    if heap.length > limit then
      match heapPop heap with
      | none => (heap, lw)
      | some (t, rest) => cullLoop fuel rest limit (lw + treeWeight t)
    else (heap, lw)

/-- Merging loop of `buildHuffmanTree`: `while (heap.size() > 1) { left =
pop; right = pop; push(new HuffmanTree(left, right)); }`, then `heap.top()`.
An empty heap would be undefined behaviour in the source; we return none. -/
def mergeLoop : Nat → List HuffmanTree → Option HuffmanTree
  | 0, heap => heapTop heap
  | fuel + 1, heap =>
    if heap.length > 1 then
      match heapPop heap with
      | none => none
      | some (l, rest) =>
        match heapPop rest with
        | none => none
        | some (r, rest2) =>
          mergeLoop fuel
            (HuffmanTree.internal l r (treeWeight l + treeWeight r) :: rest2)
    else heapTop heap

/-- buildHuffmanTree from huffman.cpp: entries with count 1 are absorbed
into the literal weight up front, the heap is culled down to `limit`, the
literal leaf is pushed when its weight is positive, and the heap is merged
down to a single tree. -/
def buildHuffmanTree (frequencyMap : List (Nat × Nat)) (limit : Nat)
    (literal : Nat) : Option HuffmanTree :=
  let leaves := (frequencyMap.filter fun x => x.2 ≠ 1).map
    fun x => HuffmanTree.leaf x.1 x.2
  let lw0 := (frequencyMap.filter fun x => x.2 = 1).length
  let culled := cullLoop leaves.length leaves limit lw0
  let heap := if culled.2 > 0 then HuffmanTree.leaf literal culled.2 :: culled.1
    else culled.1
  mergeLoop heap.length heap

/-- Leaves of a tree as (code, weight) pairs, in-order. -/
def leavesOf : HuffmanTree → List (Nat × Nat)
  | .leaf c w => [(c, w)]
  | .internal l r _ => leavesOf l ++ leavesOf r

/-- All leaves of all trees of a heap. -/
def heapLeaves (h : List HuffmanTree) : List (Nat × Nat) :=
  (h.map leavesOf).join

/-- The intermediate values of buildHuffmanTree, named for the analysis:
the initial leaf list, the up-front literal weight, the culled heap with
its accumulated literal weight, and the heap handed to the merge loop. -/
def huffLeaves (freq : List (Nat × Nat)) : List HuffmanTree :=
  (freq.filter fun x => x.2 ≠ 1).map fun x => HuffmanTree.leaf x.1 x.2

def huffLw0 (freq : List (Nat × Nat)) : Nat :=
  (freq.filter fun x => x.2 = 1).length

def huffCulled (freq : List (Nat × Nat)) (limit : Nat) :
    List HuffmanTree × Nat :=
  cullLoop (huffLeaves freq).length (huffLeaves freq) limit (huffLw0 freq)

def huffHeap (freq : List (Nat × Nat)) (limit literal : Nat) :
    List HuffmanTree :=
  if (huffCulled freq limit).2 > 0 then
    HuffmanTree.leaf literal (huffCulled freq limit).2 :: (huffCulled freq limit).1
  else (huffCulled freq limit).1

/-! ### Arithmetic helpers for disjoint bit fields

The source packs instruction words with `|` over disjoint shifted fields.
These lemmas let us convert such packings to plain sums. -/

theorem mulPow_or_eq_add (n : Nat) :
    ∀ t x : Nat, x < 2 ^ n → (t * 2 ^ n) ||| x = t * 2 ^ n + x := by
  induction n with
  | zero =>
    intro t x hx
    interval_cases x
    simp
  | succ n ih =>
    intro t x hx
    have hbit : x = Nat.bit (decide (x % 2 = 1)) (x / 2) := by
      rw [Nat.bit_val]
      rcases Nat.mod_two_eq_zero_or_one x with h | h <;> simp [h] <;> omega
    have ht : t * 2 ^ (n + 1) = Nat.bit false (t * 2 ^ n) := by
      simp [Nat.bit_val, Nat.pow_succ]
      ring
    have hx2 : x / 2 < 2 ^ n := by
      rw [Nat.pow_succ] at hx
      omega
    rw [ht, hbit, Nat.lor_bit, ih _ _ hx2]
    simp only [Nat.bit_val, Bool.toNat_false, Bool.false_or]
    omega

theorem shift_or_eq_add (t x n : Nat) (hx : x < 2 ^ n) :
    (t <<< n) ||| x = t * 2 ^ n + x := by
  rw [Nat.shiftLeft_eq]
  exact mulPow_or_eq_add n t x hx

theorem add_shr (t x n : Nat) (hx : x < 2 ^ n) : (t * 2 ^ n + x) >>> n = t := by
  rw [Nat.shiftRight_eq_div_pow, Nat.mul_comm,
    Nat.mul_add_div (Nat.pos_pow_of_pos n (by omega)), Nat.div_eq_of_lt hx]
  omega

theorem add_mask (t x n : Nat) (hx : x < 2 ^ n) :
    (t * 2 ^ n + x) &&& (2 ^ n - 1) = x := by
  rw [Nat.and_pow_two_sub_one_eq_mod, Nat.add_comm, Nat.add_mul_mod_self_right]
  exact Nat.mod_eq_of_lt hx

/-! Field lemmas: the packed words written as plain sums. -/

theorem CODE_PAUSE_eq (d : Nat) : CODE_PAUSE d = TAG_PAUSE * 2 ^ 56 + d % 256 := by
  have hd : d % 256 < 2 ^ 56 := by
    have := Nat.mod_lt d (y := 256) (by omega)
    omega
  simpa [CODE_PAUSE] using shift_or_eq_add TAG_PAUSE (d % 256) 56 hd

theorem CODE_SUSTAIN_eq (d : Nat) : CODE_SUSTAIN d = TAG_SUSTAIN * 2 ^ 56 + d % 256 := by
  have hd : d % 256 < 2 ^ 56 := by
    have := Nat.mod_lt d (y := 256) (by omega)
    omega
  simpa [CODE_SUSTAIN] using shift_or_eq_add TAG_SUSTAIN (d % 256) 56 hd

theorem CODE_WRITE_DELTA_eq (cc cx fc fx vc vx d : Nat)
    (hcc : cc ≤ 1) (hfc : fc ≤ 1) (hvc : vc ≤ 1) :
    CODE_WRITE_DELTA cc cx fc fx vc vx d =
      TAG_WRITE_DELTA * 2 ^ 56 + cc * 2 ^ 48 + (cx % 256) * 2 ^ 40 +
        fc * 2 ^ 32 + (fx % 256) * 2 ^ 24 + vc * 2 ^ 16 + (vx % 256) * 2 ^ 8 +
        d % 256 := by
  have hcx : cx % 256 < 256 := Nat.mod_lt _ (by omega)
  have hfx : fx % 256 < 256 := Nat.mod_lt _ (by omega)
  have hvx : vx % 256 < 256 := Nat.mod_lt _ (by omega)
  have hd : d % 256 < 256 := Nat.mod_lt _ (by omega)
  unfold CODE_WRITE_DELTA
  rw [Nat.shiftLeft_eq, Nat.shiftLeft_eq, Nat.shiftLeft_eq, Nat.shiftLeft_eq,
    Nat.shiftLeft_eq, Nat.shiftLeft_eq, Nat.shiftLeft_eq]
  rw [mulPow_or_eq_add 56 TAG_WRITE_DELTA (cc * 2 ^ 48) (by nlinarith)]
  rw [show TAG_WRITE_DELTA * 2 ^ 56 + cc * 2 ^ 48 =
      (TAG_WRITE_DELTA * 2 ^ 8 + cc) * 2 ^ 48 by ring]
  rw [mulPow_or_eq_add 48 _ ((cx % 256) * 2 ^ 40) (by nlinarith)]
  rw [show (TAG_WRITE_DELTA * 2 ^ 8 + cc) * 2 ^ 48 + (cx % 256) * 2 ^ 40 =
      (TAG_WRITE_DELTA * 2 ^ 16 + cc * 2 ^ 8 + cx % 256) * 2 ^ 40 by ring]
  rw [mulPow_or_eq_add 40 _ (fc * 2 ^ 32) (by nlinarith)]
  rw [show (TAG_WRITE_DELTA * 2 ^ 16 + cc * 2 ^ 8 + cx % 256) * 2 ^ 40 + fc * 2 ^ 32 =
      (TAG_WRITE_DELTA * 2 ^ 24 + cc * 2 ^ 16 + (cx % 256) * 2 ^ 8 + fc) * 2 ^ 32 by ring]
  rw [mulPow_or_eq_add 32 _ ((fx % 256) * 2 ^ 24) (by nlinarith)]
  rw [show (TAG_WRITE_DELTA * 2 ^ 24 + cc * 2 ^ 16 + (cx % 256) * 2 ^ 8 + fc) * 2 ^ 32 +
      (fx % 256) * 2 ^ 24 =
      (TAG_WRITE_DELTA * 2 ^ 32 + cc * 2 ^ 24 + (cx % 256) * 2 ^ 16 + fc * 2 ^ 8 +
        fx % 256) * 2 ^ 24 by ring]
  rw [mulPow_or_eq_add 24 _ (vc * 2 ^ 16) (by nlinarith)]
  rw [show (TAG_WRITE_DELTA * 2 ^ 32 + cc * 2 ^ 24 + (cx % 256) * 2 ^ 16 + fc * 2 ^ 8 +
      fx % 256) * 2 ^ 24 + vc * 2 ^ 16 =
      (TAG_WRITE_DELTA * 2 ^ 40 + cc * 2 ^ 32 + (cx % 256) * 2 ^ 24 + fc * 2 ^ 16 +
        (fx % 256) * 2 ^ 8 + vc) * 2 ^ 16 by ring]
  rw [mulPow_or_eq_add 16 _ ((vx % 256) * 2 ^ 8) (by nlinarith)]
  rw [show (TAG_WRITE_DELTA * 2 ^ 40 + cc * 2 ^ 32 + (cx % 256) * 2 ^ 24 + fc * 2 ^ 16 +
      (fx % 256) * 2 ^ 8 + vc) * 2 ^ 16 + (vx % 256) * 2 ^ 8 =
      (TAG_WRITE_DELTA * 2 ^ 48 + cc * 2 ^ 40 + (cx % 256) * 2 ^ 32 + fc * 2 ^ 24 +
        (fx % 256) * 2 ^ 16 + vc * 2 ^ 8 + vx % 256) * 2 ^ 8 by ring]
  rw [mulPow_or_eq_add 8 _ (d % 256) (by omega)]

theorem type_CODE_PAUSE (d : Nat) : GET_CODE_TYPE (CODE_PAUSE d) = TAG_PAUSE := by
  rw [CODE_PAUSE_eq, GET_CODE_TYPE]
  exact add_shr _ _ _ (by have := Nat.mod_lt d (y := 256) (by omega); omega)

theorem type_CODE_SUSTAIN (d : Nat) : GET_CODE_TYPE (CODE_SUSTAIN d) = TAG_SUSTAIN := by
  rw [CODE_SUSTAIN_eq, GET_CODE_TYPE]
  exact add_shr _ _ _ (by have := Nat.mod_lt d (y := 256) (by omega); omega)

theorem type_CODE_WRITE_DELTA (cc cx fc fx vc vx d : Nat)
    (hcc : cc ≤ 1) (hfc : fc ≤ 1) (hvc : vc ≤ 1) :
    GET_CODE_TYPE (CODE_WRITE_DELTA cc cx fc fx vc vx d) = TAG_WRITE_DELTA := by
  rw [CODE_WRITE_DELTA_eq cc cx fc fx vc vx d hcc hfc hvc, GET_CODE_TYPE]
  have hcx : cx % 256 < 256 := Nat.mod_lt _ (by omega)
  have hfx : fx % 256 < 256 := Nat.mod_lt _ (by omega)
  have hvx : vx % 256 < 256 := Nat.mod_lt _ (by omega)
  have hd : d % 256 < 256 := Nat.mod_lt _ (by omega)
  rw [show TAG_WRITE_DELTA * 2 ^ 56 + cc * 2 ^ 48 + (cx % 256) * 2 ^ 40 +
      fc * 2 ^ 32 + (fx % 256) * 2 ^ 24 + vc * 2 ^ 16 + (vx % 256) * 2 ^ 8 + d % 256 =
      TAG_WRITE_DELTA * 2 ^ 56 + (cc * 2 ^ 48 + (cx % 256) * 2 ^ 40 +
      fc * 2 ^ 32 + (fx % 256) * 2 ^ 24 + vc * 2 ^ 16 + (vx % 256) * 2 ^ 8 + d % 256) by ring]
  exact add_shr _ _ _ (by nlinarith)

theorem duration_CODE_SUSTAIN (d : Nat) :
    GET_CODE_WRITE_DURATION (CODE_SUSTAIN d) = d % 256 := by
  rw [CODE_SUSTAIN_eq, GET_CODE_WRITE_DURATION]
  have h8 : (0xff : Nat) = 2 ^ 8 - 1 := by norm_num
  rw [h8, show TAG_SUSTAIN * 2 ^ 56 + d % 256 =
    (TAG_SUSTAIN * 2 ^ 48) * 2 ^ 8 + d % 256 by ring]
  exact add_mask (TAG_SUSTAIN * 2 ^ 48) (d % 256) 8 (by omega)

theorem flagNe_le_one (a b : Nat) : flagNe a b ≤ 1 := by
  unfold flagNe CHANGE NOOP
  split <;> omega

theorem smoothVolume_eq_zero {a b : Nat} (h : smoothVolume a b = 0) :
    a = 0 ∧ b ≠ a + 1 := by
  unfold smoothVolume at h
  split at h
  · omega
  · split at h <;> omega

/-- Codes produced by the residual sustain loop are SUSTAIN codes with
duration between 1 and 16. -/
theorem sustainLoop_mem : ∀ fc : Nat, ∀ c ∈ sustainLoop fc,
    ∃ d, 1 ≤ d ∧ d ≤ 16 ∧ c = CODE_SUSTAIN d := by
  intro fc
  induction fc using Nat.strong_induction_on with
  | _ fc ih =>
    intro c hc
    rw [sustainLoop] at hc
    split at hc
    · next hpos =>
      simp only [List.mem_cons] at hc
      rcases hc with hc | hc
      · rcases Nat.lt_or_ge fc 17 with hlt | hge
        · exact ⟨fc, by omega, by omega, by simpa [if_neg (by omega : ¬ fc > 16)] using hc⟩
        · exact ⟨16, by omega, by omega, by simpa [if_pos (by omega : fc > 16)] using hc⟩
      · exact ih _ (by split <;> omega) c hc
    · simp at hc

/-- Case analysis on the leading opcode of `encodeChannelStateCodes`: either a
PAUSE(1) (which happens only with target volume zero and neither smoothing
sentinel applicable), a single WRITE_DELTA with flag fields in {0,1} and
duration 1, or no leading opcode; always followed by the sustain loop. -/
theorem encode_shape (next : ChannelState) (dur : Int) (last : ChannelState) :
    (∃ fc, next.r2 = 0 ∧ last.r2 ≠ next.r2 + 1 ∧
      encodeChannelStateCodes next dur last = CODE_PAUSE 1 :: sustainLoop fc) ∨
    (∃ cc cx fcf fx vcf vx fc, cc ≤ 1 ∧ fcf ≤ 1 ∧ vcf ≤ 1 ∧
      encodeChannelStateCodes next dur last =
        CODE_WRITE_DELTA cc cx fcf fx vcf vx 1 :: sustainLoop fc) ∨
    (∃ fc, encodeChannelStateCodes next dur last = sustainLoop fc) := by
  simp only [encodeChannelStateCodes, List.singleton_append, List.nil_append]
  by_cases hv : smoothVolume next.r2 last.r2 = 0
  · rw [if_pos hv]
    exact Or.inl ⟨_, (smoothVolume_eq_zero hv).1, (smoothVolume_eq_zero hv).2, rfl⟩
  · rw [if_neg hv]
    by_cases hs : flagNe next.r0 last.r0 +
        (if flagNe next.r0 last.r0 > 0 then CHANGE else flagNe next.r1 last.r1) +
        (if flagNe next.r0 last.r0 > 0 then CHANGE else flagNe next.r2 last.r2) > 0
    · rw [if_pos hs]
      refine Or.inr (Or.inl ⟨_, _, _, _, _, _, _, flagNe_le_one _ _, ?_, ?_, rfl⟩) <;>
        · split
          · norm_num [CHANGE]
          · exact flagNe_le_one _ _
    · rw [if_neg hs]
      exact Or.inr (Or.inr ⟨_, rfl⟩)

/-- Claim C6 (confirmed): every PAUSE code emitted by
`encodeChannelStateCodes` corresponds to an interval whose target volume
register (`next.registers[2]`) is zero. -/
theorem pause_implies_zero_volume (next : ChannelState) (dur : Int)
    (last : ChannelState) (c : AlphaCode)
    (hmem : c ∈ encodeChannelStateCodes next dur last)
    (hp : GET_CODE_TYPE c = TAG_PAUSE) : next.r2 = 0 := by
  rcases encode_shape next dur last with ⟨fc, h0, _, heq⟩ | ⟨cc, cx, fcf, fx, vcf, vx, fc, hcc, hfc, hvc, heq⟩ | ⟨fc, heq⟩
  · exact h0
  · rw [heq] at hmem
    rcases List.mem_cons.mp hmem with hc | hc
    · rw [hc, type_CODE_WRITE_DELTA _ _ _ _ _ _ _ hcc hfc hvc] at hp
      simp [TAG_WRITE_DELTA, TAG_PAUSE] at hp
    · rcases sustainLoop_mem fc c hc with ⟨d, _, _, hcs⟩
      rw [hcs, type_CODE_SUSTAIN] at hp
      simp [TAG_SUSTAIN, TAG_PAUSE] at hp
  · rw [heq] at hmem
    rcases sustainLoop_mem fc c hmem with ⟨d, _, _, hcs⟩
    rw [hcs, type_CODE_SUSTAIN] at hp
    simp [TAG_SUSTAIN, TAG_PAUSE] at hp

/-- Witness for `pause_implies_zero_volume` at a concrete input. -/
theorem pause_implies_zero_volume_witness :
    (⟨0, 0, 0⟩ : ChannelState).r2 = 0 :=
  pause_implies_zero_volume ⟨0, 0, 0⟩ 1 ⟨1, 1, 5⟩ (CODE_PAUSE 1)
    (by simp [encodeChannelStateCodes, flagNe, smoothVolume, CHANGE, NOOP])
    (type_CODE_PAUSE 1)

/-- Evaluation of the code emitter on a 128-frame constant-tone interval
(c=4, f=10, v=8) arriving from a differing previous state. -/
theorem encode_128_eval :
    encodeChannelStateCodes ⟨4, 10, 8⟩ 128 ⟨0, 0, 0⟩ =
      CODE_WRITE_DELTA CHANGE 4 CHANGE 10 CHANGE 8 1 ::
        [CODE_SUSTAIN 16, CODE_SUSTAIN 16, CODE_SUSTAIN 16, CODE_SUSTAIN 16,
         CODE_SUSTAIN 16, CODE_SUSTAIN 16, CODE_SUSTAIN 16, CODE_SUSTAIN 15] := by
  simp [encodeChannelStateCodes, flagNe, smoothVolume, CHANGE, NOOP, sustainLoop]

/-- Claim C2, counterexample: the 128-frame constant-tone interval does not
produce one WRITE_DELTA followed by four SUSTAIN(32). -/
theorem sustain32_counterexample :
    encodeChannelStateCodes ⟨4, 10, 8⟩ 128 ⟨0, 0, 0⟩ ≠
      CODE_WRITE_DELTA CHANGE 4 CHANGE 10 CHANGE 8 1 ::
        [CODE_SUSTAIN 32, CODE_SUSTAIN 32, CODE_SUSTAIN 32, CODE_SUSTAIN 32] := by
  rw [encode_128_eval]
  decide

/-- Claim C2 (corrected): the residual duration after the leading opcode is
emitted as SUSTAIN codes each of duration at most 16 (the source caps the
chunk at 16, not 32), and the 128-frame constant-state interval (c=4, f=10,
v=8) from a differing previous state yields one WRITE_DELTA of duration 1
followed by seven SUSTAIN(16) and one SUSTAIN(15). -/
theorem sustain_cap_sixteen :
    (∀ (next : ChannelState) (dur : Int) (last : ChannelState) (d : Nat),
      d < 256 → CODE_SUSTAIN d ∈ encodeChannelStateCodes next dur last →
      d ≤ 16) ∧
    encodeChannelStateCodes ⟨4, 10, 8⟩ 128 ⟨0, 0, 0⟩ =
      CODE_WRITE_DELTA CHANGE 4 CHANGE 10 CHANGE 8 1 ::
        [CODE_SUSTAIN 16, CODE_SUSTAIN 16, CODE_SUSTAIN 16, CODE_SUSTAIN 16,
         CODE_SUSTAIN 16, CODE_SUSTAIN 16, CODE_SUSTAIN 16, CODE_SUSTAIN 15] := by
  refine ⟨?_, encode_128_eval⟩
  intro next dur last d hd hmem
  have hsus : ∀ fc : Nat, CODE_SUSTAIN d ∈ sustainLoop fc → d ≤ 16 := by
    intro fc hc
    rcases sustainLoop_mem fc _ hc with ⟨k, hk1, hk16, hks⟩
    have hdur := congrArg GET_CODE_WRITE_DURATION hks
    rw [duration_CODE_SUSTAIN, duration_CODE_SUSTAIN] at hdur
    rw [Nat.mod_eq_of_lt hd, Nat.mod_eq_of_lt (by omega)] at hdur
    omega
  rcases encode_shape next dur last with ⟨fc, _, _, heq⟩ |
      ⟨cc, cx, fcf, fx, vcf, vx, fc, hcc, hfc, hvc, heq⟩ | ⟨fc, heq⟩
  · rw [heq] at hmem
    rcases List.mem_cons.mp hmem with hc | hc
    · have := congrArg GET_CODE_TYPE hc
      rw [type_CODE_SUSTAIN, type_CODE_PAUSE] at this
      simp [TAG_SUSTAIN, TAG_PAUSE] at this
    · exact hsus fc hc
  · rw [heq] at hmem
    rcases List.mem_cons.mp hmem with hc | hc
    · have := congrArg GET_CODE_TYPE hc
      rw [type_CODE_SUSTAIN, type_CODE_WRITE_DELTA _ _ _ _ _ _ _ hcc hfc hvc] at this
      simp [TAG_SUSTAIN, TAG_WRITE_DELTA] at this
    · exact hsus fc hc
  · rw [heq] at hmem
    exact hsus fc hmem

/-- Witness for `sustain_cap_sixteen` at a concrete input. -/
theorem sustain_cap_sixteen_witness : (16 : Nat) ≤ 16 :=
  sustain_cap_sixteen.1 ⟨4, 10, 8⟩ 128 ⟨0, 0, 0⟩ 16 (by decide)
    (by rw [sustain_cap_sixteen.2]; simp)

/-- Evaluation of the code emitter on a volume-zero interval whose previous
volume register is 1: the decrement smoothing rewrites the volume to the
sentinel 0xf0 and a WRITE_DELTA is emitted instead of a PAUSE. -/
theorem encode_volzero_prev1_eval :
    encodeChannelStateCodes ⟨4, 10, 0⟩ 5 ⟨4, 10, 1⟩ =
      [CODE_WRITE_DELTA NOOP 0 NOOP 0 CHANGE 0xf0 1, CODE_SUSTAIN 4] := by
  simp [encodeChannelStateCodes, flagNe, smoothVolume, CHANGE, NOOP, sustainLoop]

/-- Claim C3, counterexample: with target volume 0 but previous volume 1, the
leading opcode is not PAUSE(1). -/
theorem pause_leading_counterexample :
    (encodeChannelStateCodes ⟨4, 10, 0⟩ 5 ⟨4, 10, 1⟩).head? ≠
      some (CODE_PAUSE 1) := by
  rw [encode_volzero_prev1_eval]
  decide

/-- Claim C3 (corrected): for every interval whose target volume register is
0 and whose previous volume register is not 1, the leading opcode is PAUSE(1)
and the rest are SUSTAIN codes; when the previous volume is exactly 1 the
decrement smoothing turns the code into a WRITE_DELTA carrying the sentinel
0xf0. -/
theorem pause_leading_amended (next : ChannelState) (dur : Int)
    (last : ChannelState) (h0 : next.r2 = 0) (h1 : last.r2 ≠ 1) :
    (encodeChannelStateCodes next dur last).head? = some (CODE_PAUSE 1) ∧
    ∀ c ∈ (encodeChannelStateCodes next dur last).tail,
      ∃ d, 1 ≤ d ∧ d ≤ 16 ∧ c = CODE_SUSTAIN d := by
  have hv : smoothVolume next.r2 last.r2 = 0 := by
    unfold smoothVolume
    rw [if_neg (by omega), if_neg (by omega)]
    exact h0
  simp only [encodeChannelStateCodes, List.singleton_append, if_pos hv]
  exact ⟨rfl, fun c hc => sustainLoop_mem _ c (by simpa using hc)⟩

/-- Witness for `pause_leading_amended` at a concrete input. -/
theorem pause_leading_amended_witness :
    (encodeChannelStateCodes ⟨0, 0, 0⟩ 3 ⟨0, 0, 5⟩).head? =
        some (CODE_PAUSE 1) ∧
    ∀ c ∈ (encodeChannelStateCodes ⟨0, 0, 0⟩ 3 ⟨0, 0, 5⟩).tail,
      ∃ d, 1 ≤ d ∧ d ≤ 16 ∧ c = CODE_SUSTAIN d :=
  pause_leading_amended ⟨0, 0, 0⟩ 3 ⟨0, 0, 5⟩ rfl (by decide)

/-! ### Theorems about skipMap (claim C4) -/

/-- Postcondition of the skipMap pruning fold: either no non-neighbor entry
beat the initial accumulator (and the result is the initial pair), or the
result is the first maximum-count non-neighbor entry. -/
theorem skipFold_post (nextIndex : Nat) :
    ∀ (bf : List (Nat × Nat)) (acc : Nat × Nat),
      bf.Pairwise (fun a b => a.1 < b.1) →
      (let res := bf.foldl
        (fun (acc : Nat × Nat) x =>
          if x.1 ≠ nextIndex ∧ x.2 > acc.1 then (x.2, x.1) else acc) acc
       (res = acc ∧ ∀ x ∈ bf, x.1 ≠ nextIndex → x.2 ≤ acc.1) ∨
       (∃ cx ∈ bf, cx.1 ≠ nextIndex ∧ res = (cx.2, cx.1) ∧ cx.2 > acc.1 ∧
        (∀ y ∈ bf, y.1 ≠ nextIndex → y.2 ≤ cx.2) ∧
        (∀ y ∈ bf, y.1 ≠ nextIndex → y.2 = cx.2 → cx.1 ≤ y.1))) := by
  intro bf
  induction bf with
  | nil =>
    intro acc _
    exact Or.inl ⟨rfl, by simp⟩
  | cons x rest ih =>
    intro acc hsort
    rcases List.pairwise_cons.mp hsort with ⟨hx, hrest⟩
    simp only [List.foldl_cons]
    by_cases hcond : x.1 ≠ nextIndex ∧ x.2 > acc.1
    · rw [if_pos hcond]
      rcases ih (x.2, x.1) hrest with ⟨heq, hall⟩ | ⟨cx, hmem, hne, heq, hgt, hmax, htie⟩
      · refine Or.inr ⟨x, List.mem_cons_self x rest, hcond.1, heq, hcond.2, ?_, ?_⟩
        · intro y hy hyne
          rcases List.mem_cons.mp hy with rfl | hy
          · exact Nat.le_refl _
          · exact hall y hy hyne
        · intro y hy hyne hyeq
          rcases List.mem_cons.mp hy with rfl | hy
          · exact Nat.le_refl _
          · exact Nat.le_of_lt (hx y hy)
      · refine Or.inr ⟨cx, List.mem_cons_of_mem x hmem, hne, heq, by omega, ?_, ?_⟩
        · intro y hy hyne
          rcases List.mem_cons.mp hy with rfl | hy
          · omega
          · exact hmax y hy hyne
        · intro y hy hyne hyeq
          rcases List.mem_cons.mp hy with rfl | hy
          · omega
          · exact htie y hy hyne hyeq
    · rw [if_neg hcond]
      rcases ih acc hrest with ⟨heq, hall⟩ | ⟨cx, hmem, hne, heq, hgt, hmax, htie⟩
      · refine Or.inl ⟨heq, ?_⟩
        intro y hy hyne
        rcases List.mem_cons.mp hy with rfl | hy
        · omega
        · exact hall y hy hyne
      · refine Or.inr ⟨cx, List.mem_cons_of_mem x hmem, hne, heq, hgt, ?_, ?_⟩
        · intro y hy hyne
          rcases List.mem_cons.mp hy with rfl | hy
          · omega
          · exact hmax y hy hyne
        · intro y hy hyne hyeq
          rcases List.mem_cons.mp hy with rfl | hy
          · omega
          · exact htie y hy hyne hyeq

/-- The computed skipMap entry is the skipEntry of the per-position fold. -/
theorem computeSkipMap_getD (copyMap : Array Nat)
    (bfm : Array (List (Nat × Nat))) (src : Nat) (hsrc : src < bfm.size) :
    (computeSkipMap copyMap bfm).getD src 0 =
      skipEntry copyMap src (bfm.getD src []) := by
  unfold computeSkipMap
  rw [List.getD_eq_getElem?_getD, List.getElem?_map, List.getElem?_range hsrc]
  rfl

/-- Claim C4, counterexample: in the parse of the alphabet sequence
0 1 2 3 4 0 1 2 3 4, position 4 has a single-entry branch table whose only
successor is 0, yet skipMap[4] is 0 and not the physical neighbor 5. -/
theorem skipMap_counterexample :
    ((parseSpans 0 0 (findPriorSpec testSeq10) testSeq10.length
        ).branchFrequencyMap.getD 4 []).length < 2 ∧
    (computeSkipMap
        (parseSpans 0 0 (findPriorSpec testSeq10) testSeq10.length).copyMap
        (parseSpans 0 0 (findPriorSpec testSeq10) testSeq10.length
          ).branchFrequencyMap).getD 4 0 = 0 ∧
    (0 : Nat) ≠ 4 + 1 := by
  decide

/-- Claim C4 (corrected): when `branchFrequencyMap[src]` contains at least
one successor other than `src+1`, `skipMap[src]` is the non-neighbor
successor with the highest count (first one in key order on ties); otherwise
`skipMap[src]` is `copyMap[src+1]`, not `src+1` itself. -/
theorem skipMap_spec (copyMap : Array Nat) (bfm : Array (List (Nat × Nat)))
    (src : Nat) (hsrc : src < bfm.size)
    (hsort : (bfm.getD src []).Pairwise (fun a b => a.1 < b.1))
    (hpos : ∀ x ∈ bfm.getD src [], 1 ≤ x.2) :
    ((∀ x ∈ bfm.getD src [], x.1 = src + 1) →
      (computeSkipMap copyMap bfm).getD src 0 = copyMap.getD (src + 1) 0) ∧
    ((∃ x ∈ bfm.getD src [], x.1 ≠ src + 1) →
      ∃ c, ((computeSkipMap copyMap bfm).getD src 0, c) ∈ bfm.getD src [] ∧
        (computeSkipMap copyMap bfm).getD src 0 ≠ src + 1 ∧
        ∀ y ∈ bfm.getD src [], y.1 ≠ src + 1 →
          y.2 < c ∨ (y.2 = c ∧ (computeSkipMap copyMap bfm).getD src 0 ≤ y.1)) := by
  rw [computeSkipMap_getD copyMap bfm src hsrc]
  have hpost := skipFold_post (src + 1) (bfm.getD src [])
    (0, copyMap.getD (src + 1) 0) hsort
  unfold skipEntry
  constructor
  · intro hall
    rcases hpost with ⟨heq, _⟩ | ⟨cx, hmem, hne, _, _, _, _⟩
    · rw [heq]
    · exact absurd (hall cx hmem) hne
  · intro ⟨x, hx, hxne⟩
    rcases hpost with ⟨_, hbound⟩ | ⟨cx, hmem, hne, heq, _, hmax, htie⟩
    · have := hbound x hx hxne
      have := hpos x hx
      omega
    · rw [heq]
      refine ⟨cx.2, by simpa using hmem, hne, ?_⟩
      intro y hy hyne
      have h1 := hmax y hy hyne
      rcases Nat.lt_or_ge y.2 cx.2 with h | h
      · exact Or.inl h
      · exact Or.inr ⟨by omega, htie y hy hyne (by omega)⟩

/-- Witness for `skipMap_spec` on the parse of 0 1 2 3 4 0 1 2 3 4 5 at
position 4, whose branch table has the two successors 0 and 10. -/
theorem skipMap_spec_witness :
    ((∀ x ∈ (parseSpans 0 0 (findPriorSpec testSeq11) testSeq11.length
        ).branchFrequencyMap.getD 4 [], x.1 = 4 + 1) →
      (computeSkipMap
        (parseSpans 0 0 (findPriorSpec testSeq11) testSeq11.length).copyMap
        (parseSpans 0 0 (findPriorSpec testSeq11) testSeq11.length
          ).branchFrequencyMap).getD 4 0 =
        (parseSpans 0 0 (findPriorSpec testSeq11) testSeq11.length
          ).copyMap.getD (4 + 1) 0) ∧
    ((∃ x ∈ (parseSpans 0 0 (findPriorSpec testSeq11) testSeq11.length
        ).branchFrequencyMap.getD 4 [], x.1 ≠ 4 + 1) →
      ∃ c, ((computeSkipMap
          (parseSpans 0 0 (findPriorSpec testSeq11) testSeq11.length).copyMap
          (parseSpans 0 0 (findPriorSpec testSeq11) testSeq11.length
            ).branchFrequencyMap).getD 4 0, c) ∈
          (parseSpans 0 0 (findPriorSpec testSeq11) testSeq11.length
            ).branchFrequencyMap.getD 4 [] ∧
        (computeSkipMap
          (parseSpans 0 0 (findPriorSpec testSeq11) testSeq11.length).copyMap
          (parseSpans 0 0 (findPriorSpec testSeq11) testSeq11.length
            ).branchFrequencyMap).getD 4 0 ≠ 4 + 1 ∧
        ∀ y ∈ (parseSpans 0 0 (findPriorSpec testSeq11) testSeq11.length
            ).branchFrequencyMap.getD 4 [], y.1 ≠ 4 + 1 →
          y.2 < c ∨ (y.2 = c ∧ (computeSkipMap
            (parseSpans 0 0 (findPriorSpec testSeq11) testSeq11.length).copyMap
            (parseSpans 0 0 (findPriorSpec testSeq11) testSeq11.length
              ).branchFrequencyMap).getD 4 0 ≤ y.1)) :=
  skipMap_spec _ _ 4 (by decide) (by decide) (by decide)

/-! ### Theorems about the emit loop (claim C5) -/

/-- Claim C5 (confirmed): at a literal position `i` (the emit counter equals
`i` and `copyMap[i] = i`) whose code is not STOP and whose branch table has
at least two entries, one emit step appends the literal code, BRANCH_POINT
and JUMP(skipMap[i]) to the data stream, and pushes exactly one of
TAKE_DATA_JUMP (successor equals skipMap[i]), SKIP (successor is the
physical neighbor i+1), or TAKE_TRACK_JUMP followed by JUMP(successor) into
the span stream. -/
theorem branch_point_emission (ss ch : Nat) (codeSequence : List AlphaCode)
    (copyMap : Array Nat) (bfm : Array (List (Nat × Nat))) (skipMap : List Nat)
    (i : Nat) (st : EmitState)
    (hend : st.endPos = i)
    (hcm : copyMap.getD i 0 = i)
    (hc : codeSequence.getD i 0 ≠ CODE_STOP)
    (hbt : 2 ≤ (bfm.getD i []).length)
    (hskip : skipMap.getD i 0 ≠ i + 1) :
    (emitPos ss ch codeSequence copyMap bfm skipMap false i st).2 = false ∧
    (emitPos ss ch codeSequence copyMap bfm skipMap false i st).1.ccs =
      st.ccs ++ [codeSequence.getD i 0, CODE_BRANCH_POINT,
        CODE_JUMP ss ch (skipMap.getD i 0)] ∧
    (copyMap.getD (i + 1) 0 = skipMap.getD i 0 →
      (emitPos ss ch codeSequence copyMap bfm skipMap false i st).1.spanSeq =
        st.spanSeq ++ [CODE_TAKE_DATA_JUMP]) ∧
    (copyMap.getD (i + 1) 0 = i + 1 →
      (emitPos ss ch codeSequence copyMap bfm skipMap false i st).1.spanSeq =
        st.spanSeq ++ [CODE_SKIP]) ∧
    (copyMap.getD (i + 1) 0 ≠ skipMap.getD i 0 →
      copyMap.getD (i + 1) 0 ≠ i + 1 →
      (emitPos ss ch codeSequence copyMap bfm skipMap false i st).1.spanSeq =
        st.spanSeq ++ [CODE_TAKE_TRACK_JUMP,
          CODE_JUMP ss ch (copyMap.getD (i + 1) 0)]) := by
  have hnotstop : ¬ (¬ (false : Bool) = true ∧
      codeSequence.getD i 0 = CODE_STOP) := fun h => hc h.2
  simp only [emitPos, hend, hcm]
  rw [dif_neg hnotstop]
  simp only [Bool.false_eq_true, if_false]
  have hcond : ¬ (copyMap.getD (i + 1) 0 = i + 1 ∧ (bfm.getD i []).length < 2) :=
    fun h => by omega
  rw [if_neg hcond, if_neg (by omega : ¬ (bfm.getD i []).length < 2),
    if_pos (by omega : (bfm.getD i []).length > 1)]
  refine ⟨?_, ?_, ?_, ?_, ?_⟩
  · split <;> (try split) <;> rfl
  · split <;> (try split) <;> simp
  · intro hnext
    rw [if_pos hnext]
  · intro hnext
    rw [if_neg (by rw [hnext]; exact fun h => hskip h.symm), if_pos hnext]
  · intro hns hnn
    rw [if_neg hns, if_neg hnn]

/-- Witness for `branch_point_emission` at the literal position 4 of the
parse of `testSeq11`. -/
theorem branch_point_emission_witness :
    (emitPos 0 0 w5codes w5copy w5bfm w5skip false 4 w5state).2 = false ∧
    (emitPos 0 0 w5codes w5copy w5bfm w5skip false 4 w5state).1.ccs =
      w5state.ccs ++ [w5codes.getD 4 0, CODE_BRANCH_POINT,
        CODE_JUMP 0 0 (w5skip.getD 4 0)] ∧
    (w5copy.getD (4 + 1) 0 = w5skip.getD 4 0 →
      (emitPos 0 0 w5codes w5copy w5bfm w5skip false 4 w5state).1.spanSeq =
        w5state.spanSeq ++ [CODE_TAKE_DATA_JUMP]) ∧
    (w5copy.getD (4 + 1) 0 = 4 + 1 →
      (emitPos 0 0 w5codes w5copy w5bfm w5skip false 4 w5state).1.spanSeq =
        w5state.spanSeq ++ [CODE_SKIP]) ∧
    (w5copy.getD (4 + 1) 0 ≠ w5skip.getD 4 0 →
      w5copy.getD (4 + 1) 0 ≠ 4 + 1 →
      (emitPos 0 0 w5codes w5copy w5bfm w5skip false 4 w5state).1.spanSeq =
        w5state.spanSeq ++ [CODE_TAKE_TRACK_JUMP,
          CODE_JUMP 0 0 (w5copy.getD (4 + 1) 0)]) :=
  branch_point_emission 0 0 w5codes w5copy w5bfm w5skip 4 w5state rfl
    (by decide) (by decide) (by decide) (by decide)

/-! ### Theorems about copyMap (claim C7) -/

theorem getD_setD_eq (a : Array Nat) (i v : Nat) (h : i < a.size) :
    (a.setD i v).getD i 0 = v := by
  simp [Array.setD, Array.getD, h, Array.get_set_eq]

theorem getD_setD_ne (a : Array Nat) (i m v : Nat) (hne : i ≠ m) :
    (a.setD i v).getD m 0 = a.getD m 0 := by
  by_cases hi : i < a.size
  · by_cases hm : m < a.size
    · unfold Array.setD
      rw [dif_pos hi]
      unfold Array.getD
      rw [dif_pos (show m < (a.set ⟨i, hi⟩ v).size from by
        rw [Array.size_set]; exact hm), dif_pos hm]
      exact Array.get_set_ne a ⟨i, hi⟩ v hm hne
    · simp [Array.setD, hi, Array.getD, Array.size_set, hm]
  · simp [Array.setD, hi]

theorem getD_replicate_lt {α : Type} (k t : Nat) (a d : α) (h : t < k) :
    (List.replicate k a).getD t d = a := by
  induction k generalizing t with
  | zero => omega
  | succ k ih =>
    cases t with
    | zero => simp [List.replicate_succ]
    | succ t =>
      rw [List.replicate_succ]
      simpa using ih t (by omega)

theorem literalFlags_length : ∀ (l : List Span) (pos : Nat),
    (literalFlags l pos).length = spansLen l := by
  intro l
  induction l with
  | nil => intro pos; simp [literalFlags, spansLen]
  | cons sp rest ih =>
    intro pos
    simp only [literalFlags, List.length_append, List.length_replicate,
      ih (pos + sp.length), spansLen, List.map_cons, List.sum_cons]

theorem spansLen_append (xs ys : List Span) :
    spansLen (xs ++ ys) = spansLen xs + spansLen ys := by
  simp [spansLen]

theorem literalFlags_append : ∀ (xs ys : List Span) (pos : Nat),
    literalFlags (xs ++ ys) pos =
      literalFlags xs pos ++ literalFlags ys (pos + spansLen xs) := by
  intro xs
  induction xs with
  | nil => intro ys pos; simp [literalFlags, spansLen]
  | cons sp rest ih =>
    intro ys pos
    rw [List.cons_append]
    rw [show literalFlags (sp :: (rest ++ ys)) pos =
      List.replicate sp.length (decide (¬ pos > sp.start)) ++
        literalFlags (rest ++ ys) (pos + sp.length) from rfl]
    rw [show literalFlags (sp :: rest) pos =
      List.replicate sp.length (decide (¬ pos > sp.start)) ++
        literalFlags rest (pos + sp.length) from rfl]
    rw [ih ys (pos + sp.length), List.append_assoc]
    have harith : pos + sp.length + spansLen rest = pos + spansLen (sp :: rest) := by
      simp only [spansLen, List.map_cons, List.sum_cons]
      omega
    rw [harith]

/-- Specification of the back-reference copy loop: it preserves the span
fields, and extends the copyMap invariant over the copied region, whose
flags are all false. -/
theorem copyLoop_spec (n : Nat) (F : List Bool) :
    ∀ (rem j i : Nat) (st : ParseState),
      st.copyMap.size = n → j < i → i + rem ≤ n →
      (∀ m, i ≤ m → m < i + rem → F.getD m false = false) →
      cmInv st.copyMap F i →
      (copyLoop j i rem st).spans = st.spans ∧
      (copyLoop j i rem st).currentStart = st.currentStart ∧
      (copyLoop j i rem st).currentLen = st.currentLen ∧
      (copyLoop j i rem st).copyMap.size = n ∧
      cmInv (copyLoop j i rem st).copyMap F (i + rem) := by
  intro rem
  induction rem with
  | zero =>
    intro j i st hsz hj hle hF hm
    exact ⟨rfl, rfl, rfl, hsz, by simpa using hm⟩
  | succ rem ih =>
    intro j i st hsz hj hle hF hm
    have hisz : i < st.copyMap.size := by omega
    have hv := (hm j hj).1
    have hmain := ih (j + 1) (i + 1)
      { st with
        copyMap := st.copyMap.setD i (st.copyMap.getD j 0)
        branchFrequencyMap :=
          if i > 0 then
            bumpBfm st.branchFrequencyMap
              ((st.copyMap.setD i (st.copyMap.getD j 0)).getD (i - 1) 0)
              (st.copyMap.getD j 0)
          else st.branchFrequencyMap }
      (by simpa [Array.size_setD] using hsz)
      (by omega) (by omega)
      (fun m h1 h2 => hF m (by omega) (by omega))
      (by
        intro m hmi
        simp only []
        rcases Nat.lt_or_ge m i with hmi2 | hmi2
        · rw [getD_setD_ne _ _ _ _ (by omega)]
          exact hm m hmi2
        · have hmeq : m = i := by omega
          subst hmeq
          rw [getD_setD_eq _ _ _ hisz]
          refine ⟨by omega, ?_, ?_⟩
          · intro habs
            omega
          · intro habs
            rw [hF m (by omega) (by omega)] at habs
            cases habs)
    simp only [copyLoop]
    refine ⟨hmain.1, hmain.2.1, hmain.2.2.1, hmain.2.2.2.1, ?_⟩
    have h5 := hmain.2.2.2.2
    intro m hmlt
    exact h5 m (by omega)

/-- Invariant of the outer parse loop, by induction on the fuel: when the
loop returns, some final position `iR ≥ n` has been reached and the copyMap
invariant holds below it with respect to the literal/repeat flags of the
spans emitted so far (the pending literal span counting as literal). -/
theorem parseGo_inv (ss ch n : Nat) (fp : Nat → Nat × Nat)
    (hfp : ∀ k, k < n → 3 < (fp k).2 → (fp k).1 < k ∧ k + (fp k).2 ≤ n) :
    ∀ (fuel i : Nat) (st : ParseState),
      n ≤ i + fuel →
      st.copyMap.size = n →
      st.currentLen ≤ i →
      st.currentStart = i - st.currentLen →
      spansLen st.spans = i - st.currentLen →
      cmInv st.copyMap
        (literalFlags st.spans 0 ++ List.replicate st.currentLen true) i →
      ∃ iR, n ≤ iR ∧
        (parseGo fp n ss ch fuel i st).copyMap.size = n ∧
        (parseGo fp n ss ch fuel i st).currentLen ≤ iR ∧
        (parseGo fp n ss ch fuel i st).currentStart =
          iR - (parseGo fp n ss ch fuel i st).currentLen ∧
        spansLen (parseGo fp n ss ch fuel i st).spans =
          iR - (parseGo fp n ss ch fuel i st).currentLen ∧
        cmInv (parseGo fp n ss ch fuel i st).copyMap
          (literalFlags (parseGo fp n ss ch fuel i st).spans 0 ++
            List.replicate (parseGo fp n ss ch fuel i st).currentLen true) iR := by
  intro fuel
  induction fuel with
  | zero =>
    intro i st hfuel hsz hlen hstart hslen hm
    exact ⟨i, by omega, hsz, hlen, hstart, hslen, hm⟩
  | succ fuel ih =>
    intro i st hfuel hsz hlen hstart hslen hm
    rw [parseGo]
    by_cases hin : i < n
    · rw [if_pos hin]
      by_cases hbig : (fp i).2 > 3
      · rw [if_pos hbig]
        rcases hfp i hin hbig with ⟨hjlt, hjle⟩
        -- the two span pushes
        set st1 := if st.currentLen > 0 then
          { st with spans := st.spans ++ [Span.mk ss ch st.currentStart st.currentLen] }
          else st with hst1
        set st2 := { st1 with spans := st1.spans ++ [Span.mk ss ch (fp i).1 (fp i).2] }
          with hst2
        have hpend : ∀ p : Nat, p = st.currentStart →
            literalFlags [Span.mk ss ch st.currentStart st.currentLen] p =
              List.replicate st.currentLen true := by
          intro p hp
          simp [literalFlags, hp]
        have hback : ∀ p : Nat, (fp i).1 < p →
            literalFlags [Span.mk ss ch (fp i).1 (fp i).2] p =
              List.replicate (fp i).2 false := by
          intro p hp
          simp [literalFlags, hp]
        have hst2cm : st2.copyMap = st.copyMap := by
          rw [hst2, hst1]
          split <;> rfl
        have hst2flags : literalFlags st2.spans 0 =
            (literalFlags st.spans 0 ++ List.replicate st.currentLen true) ++
              List.replicate (fp i).2 false := by
          rw [hst2]
          by_cases hclen : st.currentLen > 0
          · rw [hst1, if_pos hclen]
            simp only []
            rw [literalFlags_append, literalFlags_append]
            rw [hpend _ (by rw [hslen, hstart]; omega)]
            rw [hback _ (by rw [spansLen_append, hslen]; simp [spansLen]; omega)]
          · rw [hst1, if_neg hclen]
            have hcl0 : st.currentLen = 0 := by omega
            simp only []
            rw [literalFlags_append]
            rw [hback _ (by rw [hslen]; omega)]
            rw [hcl0]
            simp
        have hslen1 : spansLen st1.spans = i := by
          rw [hst1]
          by_cases hclen : st.currentLen > 0
          · rw [if_pos hclen]
            simp only []
            rw [spansLen_append, hslen]
            simp [spansLen]
            omega
          · rw [if_neg hclen]
            rw [hslen]
            omega
        have hslen2 : spansLen st2.spans = i + (fp i).2 := by
          rw [hst2]
          simp only []
          rw [spansLen_append, hslen1]
          simp [spansLen]
        -- apply the copy loop spec
        have hcl := copyLoop_spec n (literalFlags st2.spans 0)
          (fp i).2 (fp i).1 i st2
          (by rw [hst2cm]; exact hsz) hjlt hjle
          (by
            intro m h1 h2
            rw [hst2flags]
            rw [List.getD_append_right _ _ _ _ (by
              simp only [List.length_append, List.length_replicate,
                literalFlags_length]
              omega)]
            apply getD_replicate_lt
            simp only [List.length_append, List.length_replicate,
              literalFlags_length]
            rw [hslen]
            omega)
          (by
            rw [hst2cm, hst2flags]
            intro m hmi
            have h := hm m hmi
            rwa [List.getD_append _ _ _ _ (by
              simp only [List.length_append, List.length_replicate,
                literalFlags_length]
              rw [hslen]
              omega)])
        -- recurse
        have hrec := ih (i + (fp i).2)
          { copyLoop (fp i).1 i (fp i).2 st2 with
            currentStart := i + (fp i).2, currentLen := 0 }
          (by omega)
          (by simpa using hcl.2.2.2.1)
          (by simp only []; omega)
          (by simp)
          (by
            simp only []
            rw [hcl.1, hslen2]
            omega)
          (by
            simp only [List.replicate_zero, List.append_nil, hcl.1]
            exact hcl.2.2.2.2)
        exact hrec
      · rw [if_neg hbig]
        have hisz : i < st.copyMap.size := by omega
        have hrec := ih (i + 1)
          { st with
            branchFrequencyMap :=
              if i > 0 then bumpBfm st.branchFrequencyMap (st.copyMap.getD (i - 1) 0) i
              else st.branchFrequencyMap
            copyMap := st.copyMap.setD i i
            currentLen := st.currentLen + 1 }
          (by omega)
          (by simpa [Array.size_setD] using hsz)
          (by simp only []; omega)
          (by simp only []; omega)
          (by
            simp only []
            rw [hslen]
            omega)
          (by
            simp only []
            intro m hmi
            have hflagslen : (literalFlags st.spans 0).length = i - st.currentLen := by
              rw [literalFlags_length, hslen]
            rcases Nat.lt_or_ge m i with hmi2 | hmi2
            · rw [getD_setD_ne _ _ _ _ (by omega)]
              have h := hm m hmi2
              rw [List.replicate_succ', ← List.append_assoc]
              rwa [List.getD_append _ _ _ _ (by
                simp only [List.length_append, List.length_replicate, hflagslen]
                omega)]
            · have hmeq : m = i := by omega
              subst hmeq
              rw [getD_setD_eq _ _ _ hisz]
              refine ⟨by omega, ?_, fun _ => rfl⟩
              intro _
              rw [List.replicate_succ', ← List.append_assoc]
              rw [List.getD_append_right _ _ _ _ (by
                simp only [List.length_append, List.length_replicate, hflagslen]
                omega)]
              simp only [List.length_append, List.length_replicate, hflagslen]
              rw [show m - ((m - st.currentLen) + st.currentLen) = 0 by omega]
              rfl)
        exact hrec
    · rw [if_neg hin]
      exact ⟨i, by omega, hsz, hlen, hstart, hslen, hm⟩

/-- Claim C7 (confirmed): throughout the greedy parse, `copyMap[i] ≤ i`, and
`copyMap[i] = i` exactly when position `i` was parsed as part of a literal
span (a span entered by the emit walk at its own start position).  The
suffix-tree oracle is assumed to return, for spans longer than the threshold,
a prior start (`start < i`) and a span that stays inside the sequence. -/
theorem copyMap_literal_spec (ss ch n : Nat) (fp : Nat → Nat × Nat)
    (hfp : ∀ k, k < n → 3 < (fp k).2 → (fp k).1 < k ∧ k + (fp k).2 ≤ n) :
    ∀ i < n, (parseSpans ss ch fp n).copyMap.getD i 0 ≤ i ∧
      ((parseSpans ss ch fp n).copyMap.getD i 0 = i ↔
        (literalFlags (parseSpans ss ch fp n).spans 0).getD i false = true) := by
  have h0 := parseGo_inv ss ch n fp hfp n 0
    ⟨Array.mkArray n 0, Array.mkArray n [], [], 0, 0⟩
    (by omega) (by simp) (by simp) (by simp) (by simp [spansLen, literalFlags])
    (by intro m hm; omega)
  rcases h0 with ⟨iR, hiR, hsz, hlenR, hstartR, hslenR, hmR⟩
  intro i hi
  unfold parseSpans
  simp only []
  by_cases hclen :
    (parseGo fp n ss ch n 0 ⟨Array.mkArray n 0, Array.mkArray n [], [], 0, 0⟩).currentLen > 0
  · rw [if_pos hclen]
    simp only []
    have hflags : literalFlags
        ((parseGo fp n ss ch n 0 ⟨Array.mkArray n 0, Array.mkArray n [], [], 0, 0⟩).spans ++
          [Span.mk ss ch
            (parseGo fp n ss ch n 0 ⟨Array.mkArray n 0, Array.mkArray n [], [], 0, 0⟩).currentStart
            (parseGo fp n ss ch n 0 ⟨Array.mkArray n 0, Array.mkArray n [], [], 0, 0⟩).currentLen]) 0 =
        literalFlags (parseGo fp n ss ch n 0 ⟨Array.mkArray n 0, Array.mkArray n [], [], 0, 0⟩).spans 0 ++
          List.replicate
            (parseGo fp n ss ch n 0 ⟨Array.mkArray n 0, Array.mkArray n [], [], 0, 0⟩).currentLen true := by
      rw [literalFlags_append]
      congr 1
      rw [show (0 + spansLen (parseGo fp n ss ch n 0
        ⟨Array.mkArray n 0, Array.mkArray n [], [], 0, 0⟩).spans) =
        (parseGo fp n ss ch n 0 ⟨Array.mkArray n 0, Array.mkArray n [], [], 0, 0⟩).currentStart
        from by rw [hslenR, hstartR]; omega]
      simp [literalFlags]
    rw [hflags]
    exact hmR i (by omega)
  · rw [if_neg hclen]
    have hcl0 :
        (parseGo fp n ss ch n 0 ⟨Array.mkArray n 0, Array.mkArray n [], [], 0, 0⟩).currentLen = 0 := by
      omega
    have h := hmR i (by omega)
    rwa [hcl0, List.replicate_zero, List.append_nil] at h

/-- Witness for `copyMap_literal_spec` on the parse of `testSeq11` at the
back-reference position 7. -/
theorem copyMap_literal_spec_witness :
    (parseSpans 0 0 (findPriorSpec testSeq11) testSeq11.length).copyMap.getD 7 0 ≤ 7 ∧
    ((parseSpans 0 0 (findPriorSpec testSeq11) testSeq11.length).copyMap.getD 7 0 = 7 ↔
      (literalFlags (parseSpans 0 0 (findPriorSpec testSeq11) testSeq11.length).spans 0
        ).getD 7 false = true) :=
  copyMap_literal_spec 0 0 testSeq11.length (findPriorSpec testSeq11)
    (by decide) 7 (by decide)

/-! ### Theorems about the bitstream (claims C9 and C10) -/

theorem streamBit_testBit (bs : Bitstream) (p : Nat) :
    streamBit bs p = ((bs.buffer.getD (p >>> 6) 0).testBit (p % 64)).toNat := by
  unfold streamBit
  have h1 : ∀ w s : Nat, (w >>> s) &&& 1 = (w.testBit s).toNat := by
    intro w s
    rw [Nat.and_one_is_mod, Nat.testBit_to_div_mod, Nat.shiftRight_eq_div_pow]
    rcases Nat.mod_two_eq_zero_or_one (w / 2 ^ s) with h | h <;> simp [h]
  exact h1 _ _

theorem listGetD_set_eq : ∀ (l : List Nat) (i v : Nat), i < l.length →
    (l.set i v).getD i 0 = v := by
  intro l
  induction l with
  | nil => intro i v h; simp at h
  | cons a rest ih =>
    intro i v h
    cases i with
    | zero => rfl
    | succ i =>
      simp only [List.set_cons_succ, List.getD_cons_succ]
      exact ih i v (by simpa using h)

theorem listGetD_set_ne : ∀ (l : List Nat) (i m v : Nat), i ≠ m →
    (l.set i v).getD m 0 = l.getD m 0 := by
  intro l
  induction l with
  | nil => intro i m v h; rfl
  | cons a rest ih =>
    intro i m v h
    cases i with
    | zero =>
      cases m with
      | zero => omega
      | succ m => rfl
    | succ i =>
      cases m with
      | zero => rfl
      | succ m =>
        simp only [List.set_cons_succ, List.getD_cons_succ]
        exact ih i m v (by omega)

theorem testBit_writtenWord_same (w s : Nat) (bit : Bool) (hs : s < 64) :
    ((if bit then w ||| 1 <<< s else w &&& (2 ^ 64 - 1 ^^^ 1 <<< s)).testBit s) = bit := by
  have h2 : (1 : Nat) <<< s = 2 ^ s := by rw [Nat.shiftLeft_eq, Nat.one_mul]
  cases bit with
  | true => simp [h2, Nat.testBit_lor, Nat.testBit_two_pow_self]
  | false =>
    have h3 : Nat.testBit 18446744073709551615 s = true := by
      rw [show (18446744073709551615 : Nat) = 2 ^ 64 - 1 by norm_num,
        Nat.testBit_two_pow_sub_one]
      simpa using hs
    simp [h2, Nat.testBit_land, Nat.testBit_xor, Nat.testBit_two_pow_self, h3]

theorem testBit_writtenWord_other (w s t : Nat) (bit : Bool) (ht : t < 64)
    (hne : s ≠ t) :
    ((if bit then w ||| 1 <<< s else w &&& (2 ^ 64 - 1 ^^^ 1 <<< s)).testBit t) =
      w.testBit t := by
  have h2 : (1 : Nat) <<< s = 2 ^ s := by rw [Nat.shiftLeft_eq, Nat.one_mul]
  cases bit with
  | true => simp [h2, Nat.testBit_lor, Nat.testBit_two_pow_of_ne hne]
  | false =>
    have h3 : Nat.testBit 18446744073709551615 t = true := by
      rw [show (18446744073709551615 : Nat) = 2 ^ 64 - 1 by norm_num,
        Nat.testBit_two_pow_sub_one]
      simpa using ht
    simp [h2, Nat.testBit_land, Nat.testBit_xor, Nat.testBit_two_pow_of_ne hne, h3]

theorem streamBit_writeBit_same (bs : Bitstream) (bit : Bool)
    (h : bs.pos >>> 6 < bs.buffer.length) :
    streamBit (writeBit bs bit) bs.pos = if bit then 1 else 0 := by
  rw [streamBit_testBit]
  unfold writeBit
  simp only []
  rw [listGetD_set_eq _ _ _ h]
  rw [testBit_writtenWord_same _ _ _ (Nat.mod_lt _ (by omega))]
  cases bit <;> rfl

theorem streamBit_writeBit_other (bs : Bitstream) (bit : Bool) (q : Nat)
    (hq : q ≠ bs.pos) :
    streamBit (writeBit bs bit) q = streamBit bs q := by
  rw [streamBit_testBit, streamBit_testBit]
  unfold writeBit
  simp only []
  by_cases haddr : bs.pos >>> 6 = q >>> 6
  · by_cases hlen : q >>> 6 < bs.buffer.length
    · rw [← haddr, listGetD_set_eq _ _ _ (by rw [haddr]; exact hlen), haddr]
      rw [testBit_writtenWord_other _ _ _ _ (Nat.mod_lt _ (by omega)) (by
        intro hmod
        apply hq
        have hd1 := Nat.div_add_mod q 64
        have hd2 := Nat.div_add_mod bs.pos 64
        rw [Nat.shiftRight_eq_div_pow, Nat.shiftRight_eq_div_pow] at haddr
        norm_num at haddr
        omega)]
    · have hlen2 : bs.buffer.length ≤ q >>> 6 := by omega
      rw [List.getD_eq_default _ _ (by rwa [List.length_set]),
        List.getD_eq_default _ _ hlen2]
  · rw [listGetD_set_ne _ _ _ _ haddr]

theorem writeBitN_pos : ∀ (n : Nat) (bs : Bitstream) (bit : Bool),
    (writeBitN n bs bit).pos = bs.pos + n := by
  intro n
  induction n with
  | zero => intro bs bit; rfl
  | succ n ih =>
    intro bs bit
    show (writeBitN n (writeBit bs bit) bit).pos = bs.pos + (n + 1)
    rw [ih]
    show bs.pos + 1 + n = bs.pos + (n + 1)
    omega

theorem writeBitN_len : ∀ (n : Nat) (bs : Bitstream) (bit : Bool),
    (writeBitN n bs bit).buffer.length = bs.buffer.length := by
  intro n
  induction n with
  | zero => intro bs bit; rfl
  | succ n ih =>
    intro bs bit
    show (writeBitN n (writeBit bs bit) bit).buffer.length = bs.buffer.length
    rw [ih]
    exact List.length_set bs.buffer _ _

theorem writeBitN_frozen : ∀ (n : Nat) (bs : Bitstream) (bit : Bool) (q : Nat),
    q < bs.pos → streamBit (writeBitN n bs bit) q = streamBit bs q := by
  intro n
  induction n with
  | zero => intro bs bit q hq; rfl
  | succ n ih =>
    intro bs bit q hq
    show streamBit (writeBitN n (writeBit bs bit) bit) q = streamBit bs q
    rw [ih _ _ _ (by show q < bs.pos + 1; omega)]
    exact streamBit_writeBit_other bs bit q (by omega)

theorem writeBitN_bit : ∀ (n : Nat) (bs : Bitstream) (bit : Bool) (k : Nat),
    k < n → bs.pos + n ≤ 64 * bs.buffer.length →
    streamBit (writeBitN n bs bit) (bs.pos + k) = if bit then 1 else 0 := by
  intro n
  induction n with
  | zero => intro bs bit k hk; omega
  | succ n ih =>
    intro bs bit k hk hcap
    show streamBit (writeBitN n (writeBit bs bit) bit) (bs.pos + k) = _
    cases k with
    | zero =>
      rw [writeBitN_frozen n (writeBit bs bit) bit _
        (by show bs.pos + 0 < bs.pos + 1; omega)]
      rw [show bs.pos + 0 = bs.pos by omega]
      apply streamBit_writeBit_same
      rw [Nat.shiftRight_eq_div_pow]
      norm_num
      omega
    | succ k =>
      have hshift : bs.pos + (k + 1) = (writeBit bs bit).pos + k := by
        show bs.pos + (k + 1) = bs.pos + 1 + k
        omega
      rw [hshift]
      apply ih (writeBit bs bit) bit k (by omega)
      show bs.pos + 1 + n ≤ 64 * (bs.buffer.set _ _).length
      rw [List.length_set]
      omega

theorem writeByte_eq_writeBitN (bs : Bitstream) (b : Nat) :
    writeByte bs b = writeBitN 8 bs (decide ¬ (b &&& 1 = 0)) := by
  simp [writeByte, writeByteLoop, writeBitN]

/-- Claim C10 (confirmed): writeByte(b) appends eight identical bits, each
equal to the least significant bit of b, advancing the write cursor by 8;
the upper seven bits of b never influence the stream. -/
theorem writeByte_writes_lsb (bs : Bitstream) (b : Nat)
    (hcap : bs.pos + 8 ≤ 64 * bs.buffer.length) :
    writeByte bs b = writeByte bs (b &&& 1) ∧
    (writeByte bs b).pos = bs.pos + 8 ∧
    ∀ k < 8, streamBit (writeByte bs b) (bs.pos + k) = b &&& 1 := by
  refine ⟨?_, ?_, ?_⟩
  · rw [writeByte_eq_writeBitN, writeByte_eq_writeBitN]
    have hand : (b &&& 1) &&& 1 = b &&& 1 := by
      rw [Nat.and_assoc]
      norm_num
    rw [hand]
  · rw [writeByte_eq_writeBitN, writeBitN_pos]
  · intro k hk
    rw [writeByte_eq_writeBitN, writeBitN_bit 8 bs _ k hk hcap]
    rw [Nat.and_one_is_mod]
    rcases Nat.mod_two_eq_zero_or_one b with h | h <;>
      simp [Nat.and_one_is_mod, h]

/-- Witness for `writeByte_writes_lsb` at a concrete stream and byte. -/
theorem writeByte_writes_lsb_witness :
    writeByte ⟨[0, 0], 128, 3, 3⟩ 0xab = writeByte ⟨[0, 0], 128, 3, 3⟩ (0xab &&& 1) ∧
    (writeByte ⟨[0, 0], 128, 3, 3⟩ 0xab).pos = 3 + 8 ∧
    ∀ k < 8, streamBit (writeByte ⟨[0, 0], 128, 3, 3⟩ 0xab) (3 + k) = 0xab &&& 1 :=
  writeByte_writes_lsb ⟨[0, 0], 128, 3, 3⟩ 0xab (by decide)

/-- Claim C9 (code bug): reading a byte whose 8 bits span a 64-bit word
boundary returns the wrong value.  With buffer words [0, 1] and the read
cursor at bit 57, the 8 bits starting at the cursor are bit 57..63 of word 0
(all zero) and bit 0 of word 1 (one), i.e. the byte 0x80; the code returns 0
because its spanning branch reads `buffer[address]` instead of
`buffer[next]`.  The cursor does advance by exactly 8. -/
theorem readByte_boundary_bug :
    (readByte ⟨[0, 1], 128, 57, 65⟩).1 = 0 ∧
    (readByte ⟨[0, 1], 128, 57, 65⟩).2.pos = 57 + 8 ∧
    ((List.range 8).map fun k =>
      streamBit ⟨[0, 1], 128, 57, 65⟩ (57 + k) * 2 ^ k).sum = 0x80 := by
  decide

/-! ### Theorems about buildHuffmanTree (claim C8) -/

theorem heapTop_mem : ∀ (h : List HuffmanTree) (t : HuffmanTree),
    heapTop h = some t → t ∈ h := by
  have haux : ∀ (l : List HuffmanTree) (acc : HuffmanTree),
      l.foldl (fun acc x => if popsBefore x acc then x else acc) acc = acc ∨
      l.foldl (fun acc x => if popsBefore x acc then x else acc) acc ∈ l := by
    intro l
    induction l with
    | nil => intro acc; exact Or.inl rfl
    | cons x rest ih =>
      intro acc
      rw [List.foldl_cons]
      rcases ih (if popsBefore x acc then x else acc) with h | h
      · rw [h]
        split
        · exact Or.inr (List.mem_cons_self _ _)
        · exact Or.inl rfl
      · exact Or.inr (List.mem_cons_of_mem _ h)
  intro h t ht
  cases h with
  | nil => cases ht
  | cons x rest =>
    simp only [heapTop, Option.some.injEq] at ht
    rcases haux rest x with h2 | h2
    · rw [← ht, h2]
      exact List.mem_cons_self _ _
    · rw [← ht]
      exact List.mem_cons_of_mem _ h2

theorem heapPop_perm (h : List HuffmanTree) (t : HuffmanTree)
    (rest : List HuffmanTree) (hp : heapPop h = some (t, rest)) :
    h.Perm (t :: rest) := by
  unfold heapPop at hp
  cases htop : heapTop h with
  | none => rw [htop] at hp; cases hp
  | some u =>
    rw [htop] at hp
    simp only [Option.some.injEq, Prod.mk.injEq] at hp
    rcases hp with ⟨h1, h2⟩
    rw [← h1, ← h2]
    exact List.perm_cons_erase (heapTop_mem h u htop)

theorem heapPop_of_ne_nil (h : List HuffmanTree) (hne : h ≠ []) :
    ∃ t rest, heapPop h = some (t, rest) := by
  cases h with
  | nil => exact absurd rfl hne
  | cons x r => exact ⟨_, _, rfl⟩

/-- Postcondition of the culling loop: the input heap is a permutation of
the kept heap plus the removed nodes, the literal weight grows by exactly
the removed weight, and the kept heap fits the limit. -/
theorem cullLoop_spec : ∀ (fuel : Nat) (heap : List HuffmanTree)
    (limit lw : Nat), heap.length ≤ fuel + limit →
    ∃ removed, heap.Perm ((cullLoop fuel heap limit lw).1 ++ removed) ∧
      (cullLoop fuel heap limit lw).2 = lw + (removed.map treeWeight).sum ∧
      (cullLoop fuel heap limit lw).1.length ≤ limit := by
  intro fuel
  induction fuel with
  | zero =>
    intro heap limit lw hle
    exact ⟨[], by simp [cullLoop], by simp [cullLoop], by simp [cullLoop]; omega⟩
  | succ fuel ih =>
    intro heap limit lw hle
    by_cases hlen : heap.length > limit
    · have hne : heap ≠ [] := by
        intro habs
        rw [habs] at hlen
        simp at hlen
      rcases heapPop_of_ne_nil heap hne with ⟨t, rest, hp⟩
      have hperm := heapPop_perm heap t rest hp
      have hrl : rest.length = heap.length - 1 := by
        have := hperm.length_eq
        simp at this
        omega
      rcases ih rest limit (lw + treeWeight t) (by omega) with
        ⟨removed, hq, hw, hlim⟩
      have hunfold : cullLoop (fuel + 1) heap limit lw =
          cullLoop fuel rest limit (lw + treeWeight t) := by
        rw [cullLoop]
        rw [if_pos hlen, hp]
      refine ⟨t :: removed, ?_, ?_, ?_⟩
      · rw [hunfold]
        refine hperm.trans ?_
        refine (hq.cons t).trans ?_
        exact (List.perm_middle).symm
      · rw [hunfold, hw]
        simp
        omega
      · rw [hunfold]
        exact hlim
    · refine ⟨[], ?_, ?_, ?_⟩
      · rw [cullLoop, if_neg hlen]
        simp
      · rw [cullLoop, if_neg hlen]
        simp
      · rw [cullLoop, if_neg hlen]
        simp
        omega

/-- The merging loop returns a tree whose leaf multiset is that of the whole
heap. -/
theorem mergeLoop_leaves : ∀ (fuel : Nat) (heap : List HuffmanTree),
    heap.length ≤ fuel + 1 → heap ≠ [] →
    ∃ t, mergeLoop fuel heap = some t ∧ (leavesOf t).Perm (heapLeaves heap) := by
  intro fuel
  induction fuel with
  | zero =>
    intro heap hle hne
    cases heap with
    | nil => exact absurd rfl hne
    | cons x rest =>
      cases rest with
      | nil =>
        refine ⟨x, rfl, ?_⟩
        simp [heapLeaves]
      | cons y rest2 => simp at hle
  | succ fuel ih =>
    intro heap hle hne
    by_cases hlen : heap.length > 1
    · rcases heapPop_of_ne_nil heap hne with ⟨l, rest, hp⟩
      have hperm := heapPop_perm heap l rest hp
      have hrl : rest.length = heap.length - 1 := by
        have := hperm.length_eq
        simp at this
        omega
      have hrne : rest ≠ [] := by
        intro habs
        rw [habs] at hrl
        simp at hrl
        omega
      rcases heapPop_of_ne_nil rest hrne with ⟨r, rest2, hp2⟩
      have hperm2 := heapPop_perm rest r rest2 hp2
      have hrl2 : rest2.length = rest.length - 1 := by
        have := hperm2.length_eq
        simp at this
        omega
      rcases ih (HuffmanTree.internal l r (treeWeight l + treeWeight r) :: rest2)
        (by simp; omega) (by simp) with ⟨t, hmerge, hleaves⟩
      refine ⟨t, ?_, ?_⟩
      · rw [mergeLoop, if_pos hlen, hp]
        simp only []
        rw [hp2]
        exact hmerge
      · refine hleaves.trans ?_
        show (heapLeaves (HuffmanTree.internal l r _ :: rest2)).Perm (heapLeaves heap)
        have h1 : heapLeaves (HuffmanTree.internal l r
            (treeWeight l + treeWeight r) :: rest2) =
            (leavesOf l ++ leavesOf r) ++ heapLeaves rest2 := by
          simp [heapLeaves, leavesOf]
        rw [h1]
        have h2 : (heapLeaves heap).Perm (leavesOf l ++ heapLeaves rest) := by
          have hm := hperm.map leavesOf
          have hj := List.Perm.join hm
          simpa [heapLeaves] using hj
        have h3 : (heapLeaves rest).Perm (leavesOf r ++ heapLeaves rest2) := by
          have hm := hperm2.map leavesOf
          have hj := List.Perm.join hm
          simpa [heapLeaves] using hj
        have hchain : (heapLeaves heap).Perm
            ((leavesOf l ++ leavesOf r) ++ heapLeaves rest2) := by
          refine h2.trans ?_
          refine (List.Perm.append_left (leavesOf l) h3).trans ?_
          rw [List.append_assoc]
        exact hchain.symm
    · cases heap with
      | nil => exact absurd rfl hne
      | cons x rest =>
        cases rest with
        | nil =>
          refine ⟨x, ?_, ?_⟩
          · rw [mergeLoop, if_neg hlen]
            rfl
          · simp [heapLeaves]
        | cons y rest2 => simp at hlen

theorem heapLeaves_mem (h : List HuffmanTree) (p : Nat × Nat)
    (hp : p ∈ heapLeaves h) : ∃ t ∈ h, p ∈ leavesOf t := by
  unfold heapLeaves at hp
  rw [List.mem_join] at hp
  rcases hp with ⟨l, hl, hpl⟩
  rw [List.mem_map] at hl
  rcases hl with ⟨t, ht, rfl⟩
  exact ⟨t, ht, hpl⟩

theorem heapLeaves_len_of_leaves : ∀ (h : List HuffmanTree),
    (∀ t ∈ h, ∃ c w, t = HuffmanTree.leaf c w) →
    (heapLeaves h).length = h.length := by
  intro h
  induction h with
  | nil => intro _; rfl
  | cons x rest ih =>
    intro hall
    rcases hall x (List.mem_cons_self _ _) with ⟨c, w, rfl⟩
    have h2 := ih fun t ht => hall t (List.mem_cons_of_mem _ ht)
    simp [heapLeaves, leavesOf] at h2 ⊢
    exact h2

theorem heapLeaves_sum_of_leaves : ∀ (h : List HuffmanTree),
    (∀ t ∈ h, ∃ c w, t = HuffmanTree.leaf c w) →
    ((heapLeaves h).map fun x => x.2).sum = (h.map treeWeight).sum := by
  intro h
  induction h with
  | nil => intro _; rfl
  | cons x rest ih =>
    intro hall
    rcases hall x (List.mem_cons_self _ _) with ⟨c, w, rfl⟩
    have h2 := ih fun t ht => hall t (List.mem_cons_of_mem _ ht)
    simp [heapLeaves, leavesOf, treeWeight] at h2 ⊢
    rw [h2]

theorem hw_map_leaf (l : List (Nat × Nat)) :
    ((l.map fun x => HuffmanTree.leaf x.1 x.2).map treeWeight).sum =
      (l.map fun x => x.2).sum := by
  induction l with
  | nil => rfl
  | cons x rest ih => simp [treeWeight] at ih ⊢; rw [ih]

theorem sumW_filter_split (l : List (Nat × Nat)) :
    ((l.filter fun x => x.2 = 1).map fun x => x.2).sum +
      ((l.filter fun x => x.2 ≠ 1).map fun x => x.2).sum =
      (l.map fun x => x.2).sum := by
  induction l with
  | nil => rfl
  | cons x rest ih =>
    by_cases hx : x.2 = 1
    · rw [List.filter_cons, List.filter_cons, if_pos (by simp [hx]),
        if_neg (by simp [hx])]
      simp only [List.map_cons, List.sum_cons]
      omega
    · rw [List.filter_cons, List.filter_cons, if_neg (by simp [hx]),
        if_pos (by simp [hx])]
      simp only [List.map_cons, List.sum_cons]
      omega

theorem count1_sum (l : List (Nat × Nat)) :
    ((l.filter fun x => x.2 = 1).map fun x => x.2).sum =
      (l.filter fun x => x.2 = 1).length := by
  induction l with
  | nil => rfl
  | cons x rest ih =>
    by_cases hx : x.2 = 1
    · simp [List.filter_cons, hx, ih]
      omega
    · simp [List.filter_cons, hx, ih]

theorem keys_unique : ∀ {l : List (Nat × Nat)},
    l.Pairwise (fun a b => a.1 < b.1) → ∀ (a b c : Nat),
    (a, b) ∈ l → (a, c) ∈ l → b = c := by
  intro l
  induction l with
  | nil => intro _ a b c h1; cases h1
  | cons x rest ih =>
    intro hp a b c h1 h2
    rcases List.pairwise_cons.mp hp with ⟨hx, hrest⟩
    rcases List.mem_cons.mp h1 with h1 | h1 <;>
      rcases List.mem_cons.mp h2 with h2 | h2
    · rw [← h1] at h2
      injection h2 with h3 h4
      exact h4.symm
    · have := hx _ h2
      rw [← h1] at this
      simp at this
    · have := hx _ h1
      rw [← h2] at this
      simp at this
    · exact ih hrest a b c h1 h2

theorem buildHuffmanTree_eq (freq : List (Nat × Nat)) (limit literal : Nat) :
    buildHuffmanTree freq limit literal =
      mergeLoop (huffHeap freq limit literal).length (huffHeap freq limit literal) :=
  rfl

/-- Claim C8, counterexample: with frequency map {5 ↦ 1, 7 ↦ 2} and limit
128, the code 5 loses its own leaf (it is absorbed into the literal leaf)
even though the number of codes (2) does not exceed the limit. -/
theorem huffman_counterexample :
    buildHuffmanTree [(5, 1), (7, 2)] 128 99 =
      some (HuffmanTree.internal (HuffmanTree.leaf 99 1) (HuffmanTree.leaf 7 2) 3) ∧
    ((leavesOf (HuffmanTree.internal (HuffmanTree.leaf 99 1)
      (HuffmanTree.leaf 7 2) 3)).all fun x => x.1 ≠ 5) = true ∧
    (2 : Nat) ≤ 128 := by
  refine ⟨?_, by decide, by decide⟩
  rfl

/-- Claim C8 (corrected): buildHuffmanTree returns a tree with at most
`limit` non-literal leaves and total leaf weight equal to the total input
weight (so the literal leaf absorbs exactly the culled weight); codes with
count 1 are always culled into the literal leaf, regardless of the limit;
every non-literal leaf carries an input code with its input count. -/
theorem buildHuffman_spec (freq : List (Nat × Nat)) (limit literal : Nat)
    (hne : freq ≠ [])
    (hpos : ∀ x ∈ freq, 1 ≤ x.2)
    (hlit : ∀ x ∈ freq, x.1 ≠ literal)
    (hkeys : freq.Pairwise fun a b => a.1 < b.1) :
    ∃ t, buildHuffmanTree freq limit literal = some t ∧
      ((leavesOf t).filter fun x => x.1 ≠ literal).length ≤ limit ∧
      (∀ x ∈ freq, x.2 = 1 → ∀ w, (x.1, w) ∉ leavesOf t) ∧
      ((leavesOf t).map fun x => x.2).sum = (freq.map fun x => x.2).sum ∧
      (∀ c w, (c, w) ∈ leavesOf t → c ≠ literal → (c, w) ∈ freq) := by
  have hLdef : huffLeaves freq =
      (freq.filter fun x => x.2 ≠ 1).map fun x => HuffmanTree.leaf x.1 x.2 := rfl
  have hlw0def : huffLw0 freq = (freq.filter fun x => x.2 = 1).length := rfl
  obtain ⟨removed, hperm, hlwEq, hkeptLen⟩ :=
    cullLoop_spec (huffLeaves freq).length (huffLeaves freq) limit
      (huffLw0 freq) (by omega)
  have hfold : cullLoop (huffLeaves freq).length (huffLeaves freq) limit
      (huffLw0 freq) = huffCulled freq limit := rfl
  rw [hfold] at hperm hlwEq hkeptLen
  have hLleaf : ∀ u ∈ huffLeaves freq,
      ∃ c w, u = HuffmanTree.leaf c w ∧ (c, w) ∈ freq ∧ w ≠ 1 := by
    intro u hu
    rw [hLdef, List.mem_map] at hu
    rcases hu with ⟨x, hx, rfl⟩
    rw [List.mem_filter] at hx
    exact ⟨x.1, x.2, rfl, by simpa using hx.1, by simpa using hx.2⟩
  have hkeptL : ∀ u ∈ (huffCulled freq limit).1,
      ∃ c w, u = HuffmanTree.leaf c w ∧ (c, w) ∈ freq ∧ w ≠ 1 :=
    fun u hu => hLleaf u (hperm.mem_iff.mpr (List.mem_append_left _ hu))
  have hremL : ∀ u ∈ removed,
      ∃ c w, u = HuffmanTree.leaf c w ∧ (c, w) ∈ freq ∧ w ≠ 1 :=
    fun u hu => hLleaf u (hperm.mem_iff.mpr (List.mem_append_right _ hu))
  have hkeptLeafShape : ∀ u ∈ (huffCulled freq limit).1,
      ∃ c w, u = HuffmanTree.leaf c w := by
    intro u hu
    rcases hkeptL u hu with ⟨c, w, h1, _, _⟩
    exact ⟨c, w, h1⟩
  have hheapne : huffHeap freq limit literal ≠ [] := by
    unfold huffHeap
    by_cases hlw : (huffCulled freq limit).2 > 0
    · rw [if_pos hlw]
      exact List.cons_ne_nil _ _
    · rw [if_neg hlw]
      intro habs
      have hlwz : (huffCulled freq limit).2 = 0 := by omega
      rw [hlwEq] at hlwz
      have hrem : removed = [] := by
        cases hr : removed with
        | nil => rfl
        | cons u rest =>
          rcases hremL u (hr ▸ List.mem_cons_self _ _) with ⟨c, w, hu, hmem, hw1⟩
          have hw2 : 1 ≤ w := hpos (c, w) hmem
          rw [hr] at hlwz
          simp [hu, treeWeight] at hlwz
          omega
      have hLlen : (huffLeaves freq).length = 0 := by
        have := hperm.length_eq
        rw [habs, hrem] at this
        simpa using this
      have hlw0z : huffLw0 freq = 0 := by
        rw [hrem] at hlwz
        simp at hlwz
        omega
      cases freq with
      | nil => exact hne rfl
      | cons x rest =>
        by_cases hx1 : x.2 = 1
        · have hxm : x ∈ (x :: rest).filter fun y => y.2 = 1 :=
            List.mem_filter.mpr ⟨List.mem_cons_self _ _, by simpa using hx1⟩
          have := List.length_pos.mpr (List.ne_nil_of_mem hxm)
          rw [hlw0def] at hlw0z
          omega
        · have hxm : HuffmanTree.leaf x.1 x.2 ∈ huffLeaves (x :: rest) := by
            rw [hLdef]
            exact List.mem_map_of_mem _
              (List.mem_filter.mpr ⟨List.mem_cons_self _ _, by simpa using hx1⟩)
          have := List.length_pos.mpr (List.ne_nil_of_mem hxm)
          omega
  obtain ⟨t, hmerge, hleaves⟩ :=
    mergeLoop_leaves (huffHeap freq limit literal).length
      (huffHeap freq limit literal) (by omega) hheapne
  have hHLcases : heapLeaves (huffHeap freq limit literal) =
      (if (huffCulled freq limit).2 > 0 then
        [(literal, (huffCulled freq limit).2)] else []) ++
        heapLeaves (huffCulled freq limit).1 := by
    unfold huffHeap
    by_cases hlw : (huffCulled freq limit).2 > 0
    · rw [if_pos hlw, if_pos hlw]
      simp [heapLeaves, leavesOf]
    · rw [if_neg hlw, if_neg hlw]
      simp
  have hKPlen : (heapLeaves (huffCulled freq limit).1).length =
      (huffCulled freq limit).1.length :=
    heapLeaves_len_of_leaves _ hkeptLeafShape
  have hKPmem : ∀ p ∈ heapLeaves (huffCulled freq limit).1,
      p ∈ freq ∧ p.2 ≠ 1 := by
    intro p hp
    rcases heapLeaves_mem _ p hp with ⟨u, hu, hpu⟩
    rcases hkeptL u hu with ⟨c, w, rfl, hmem, hw1⟩
    simp [leavesOf] at hpu
    rw [hpu]
    exact ⟨hmem, hw1⟩
  refine ⟨t, ?_, ?_, ?_, ?_, ?_⟩
  · rw [buildHuffmanTree_eq]
    exact hmerge
  · have hfilt :=
      (List.Perm.filter (fun x => decide (x.1 ≠ literal)) hleaves).length_eq
    rw [hfilt, hHLcases, List.filter_append, List.length_append]
    have h1 : ((if (huffCulled freq limit).2 > 0 then
        [(literal, (huffCulled freq limit).2)] else []).filter
        fun x => decide (x.1 ≠ literal)).length = 0 := by
      by_cases hlw : (huffCulled freq limit).2 > 0
      · rw [if_pos hlw]
        simp
      · rw [if_neg hlw]
        simp
    have h2 := List.length_filter_le (fun x => decide (x.1 ≠ literal))
      (heapLeaves (huffCulled freq limit).1)
    omega
  · intro x hx hx1 w hmem
    have hin : (x.1, w) ∈ heapLeaves (huffHeap freq limit literal) :=
      hleaves.mem_iff.mp hmem
    rw [hHLcases, List.mem_append] at hin
    rcases hin with h | h
    · by_cases hlw : (huffCulled freq limit).2 > 0
      · rw [if_pos hlw] at h
        simp at h
        exact hlit x hx h.1
      · rw [if_neg hlw] at h
        cases h
    · rcases hKPmem _ h with ⟨hmem2, hw1⟩
      have hwx := keys_unique hkeys x.1 w x.2 hmem2 (by simpa using hx)
      simp at hw1
      omega
  · have hsum1 : ((leavesOf t).map fun x => x.2).sum =
        ((heapLeaves (huffHeap freq limit literal)).map fun x => x.2).sum :=
      (hleaves.map _).sum_eq
    rw [hsum1, hHLcases, List.map_append, List.sum_append]
    have hlitsum : ((if (huffCulled freq limit).2 > 0 then
        [(literal, (huffCulled freq limit).2)] else []).map
        fun x => x.2).sum = (huffCulled freq limit).2 := by
      by_cases hlw : (huffCulled freq limit).2 > 0
      · rw [if_pos hlw]
        simp
      · rw [if_neg hlw]
        simp
        omega
    rw [hlitsum]
    have hKPsum := heapLeaves_sum_of_leaves _ hkeptLeafShape
    rw [hKPsum]
    have hLsum : ((huffLeaves freq).map treeWeight).sum =
        ((freq.filter fun x => x.2 ≠ 1).map fun x => x.2).sum := by
      rw [hLdef]
      exact hw_map_leaf _
    have hpermW := (hperm.map treeWeight).sum_eq
    rw [List.map_append, List.sum_append] at hpermW
    have hsplit := sumW_filter_split freq
    have hc1 := count1_sum freq
    rw [hlwEq]
    rw [hlw0def]
    omega
  · intro c w hmem hcl
    have hin : (c, w) ∈ heapLeaves (huffHeap freq limit literal) :=
      hleaves.mem_iff.mp hmem
    rw [hHLcases, List.mem_append] at hin
    rcases hin with h | h
    · by_cases hlw : (huffCulled freq limit).2 > 0
      · rw [if_pos hlw] at h
        simp at h
        exact absurd h.1 hcl
      · rw [if_neg hlw] at h
        cases h
    · exact (hKPmem _ h).1

/-- Witness for buildHuffman_spec at the concrete map {2 ↦ 3, 9 ↦ 2}
with limit 2 and literal sentinel 99. -/
theorem buildHuffman_spec_witness :
    ([(2, 3), (9, 2)] : List (Nat × Nat)) ≠ [] ∧
    (∃ t, buildHuffmanTree [(2, 3), (9, 2)] 2 99 = some t ∧
      ((leavesOf t).filter fun x => x.1 ≠ 99).length ≤ 2 ∧
      (∀ x ∈ ([(2, 3), (9, 2)] : List (Nat × Nat)), x.2 = 1 →
        ∀ w, (x.1, w) ∉ leavesOf t) ∧
      ((leavesOf t).map fun x => x.2).sum =
        (([(2, 3), (9, 2)] : List (Nat × Nat)).map fun x => x.2).sum ∧
      (∀ c w, (c, w) ∈ leavesOf t → c ≠ 99 →
        (c, w) ∈ ([(2, 3), (9, 2)] : List (Nat × Nat)))) :=
  ⟨by decide, buildHuffman_spec [(2, 3), (9, 2)] 2 99 (by decide)
    (by decide) (by decide) (by decide)⟩

end TIAZip
